import Mathlib

/-!
Verification of the NRG-bibliography tools (`build_publications.py` and
`check_metadata.py`).

Python strings are modelled as lists of characters (`Str := List Char`);
Python `None`-able values as `Option`; a Python function that can raise is
modelled with `Except String`.  The external pieces that the repository does
not implement are modelled as follows and noted at their definitions:
the BibTeX parser's output is a `RawEntry` record of optional string fields,
the Crossref HTTP lookup is an oracle parameter `Str → Option CrMsg`, and the
`pylatexenc` LaTeX-to-text conversion (an external library) is taken to be the
identity on its input (exact for plain text without LaTeX escape sequences);
the surrounding stripping, brace removal and whitespace collapsing of
`_latex_to_text` are modelled from the source.  Character classes
(whitespace, digits, word characters) are the ASCII ones.
-/

namespace NRGBib

/-- Python strings are modelled as lists of characters. -/
abbrev Str := List Char

/-- Turn a Lean string literal into the model type. -/
def lit (s : String) : Str := s.data

/-- ASCII whitespace, the characters stripped by Python `str.strip()` and
matched by the regex class `\s` (restricted to ASCII). -/
def isPySpace (c : Char) : Bool :=
  c = ' ' || c = '\t' || c = '\n' || c = '\r' || c = '\x0b' || c = '\x0c'

/-- ASCII digit, the model of the regex class `\d` and of `str.isdigit`. -/
def isDigitCh (c : Char) : Bool := 48 ≤ c.toNat && c.toNat ≤ 57

/-- ASCII letter. -/
def isLetterCh (c : Char) : Bool :=
  (65 ≤ c.toNat && c.toNat ≤ 90) || (97 ≤ c.toNat && c.toNat ≤ 122)

/-- Regex word character `\w` (ASCII model), used for the `\b` boundaries of
the year pattern. -/
def isWordChar (c : Char) : Bool := isDigitCh c || isLetterCh c || c = '_'

/-- Python `str.lower()` (ASCII model). -/
def lower (s : Str) : Str := s.map Char.toLower

/-- Drop the longest suffix of characters satisfying `p` (right strip). -/
def dropEndP (p : Char → Bool) (s : Str) : Str := (s.reverse.dropWhile p).reverse

/-- Strip characters satisfying `p` from both ends, as Python `str.strip`. -/
def stripP (p : Char → Bool) (s : Str) : Str := dropEndP p (s.dropWhile p)

/-- Model of `_clean` from both source files: `(s or "").strip()` applied to a
string already known to be a string; absence is handled by callers. -/
def clean (s : Str) : Str := stripP isPySpace s

/-- Python `str.strip(c)` for a one-character strip set. -/
def stripCh (c : Char) (s : Str) : Str := stripP (fun a => a = c) s

/-- Python substring test `pat in s`. -/
def hasSubstr : Str → Str → Bool
  | [], pat => pat.isEmpty
  | c :: t, pat => pat.isPrefixOf (c :: t) || hasSubstr t pat

/-- Python `s.split(sep, 1)` specialised to a one-character separator, as a
pair of the pieces before and after the first occurrence (`none` when the
separator does not occur). -/
def splitFirstCh (sep : Char) : Str → Option (Str × Str)
  | [] => none
  | a :: t =>
    if a = sep then some ([], t)
    else (splitFirstCh sep t).map (fun p => (a :: p.1, p.2))

/-- Worker for `splitSep`: scans the string left to right; a positive third
argument means that many characters of an already-matched separator remain to
be consumed. -/
def splitSepGo (sep : Str) : Str → Str → Nat → List Str
  | [], acc, _ => [acc.reverse]
  | _ :: t, acc, Nat.succ k => splitSepGo sep t acc k
  | c :: t, acc, 0 =>
    if sep.isPrefixOf (c :: t) then acc.reverse :: splitSepGo sep t [] (sep.length - 1)
    else splitSepGo sep t (c :: acc) 0

/-- Python `s.split(sep)` for a non-empty separator `sep`: pieces between
non-overlapping leftmost occurrences of `sep`. -/
def splitSep (sep s : Str) : List Str := splitSepGo sep s [] 0

/-- Worker for `splitEvery`. -/
def splitEveryGo (p : Char → Bool) : Str → Str → List Str
  | [], acc => [acc.reverse]
  | c :: t, acc =>
    if p c then acc.reverse :: splitEveryGo p t []
    else splitEveryGo p t (c :: acc)

/-- Split at every character satisfying `p`.  Splitting a string on the regex
`p+` (as `re.split` does) yields the same non-empty pieces, with empty pieces
interleaved where separators are adjacent; every consumer below discards empty
pieces, so this models `re.split(r"[...]+", s)` faithfully for them. -/
def splitEvery (p : Char → Bool) (s : Str) : List Str := splitEveryGo p s []

/-- Worker for `replaceSub`: a positive second argument means that many
characters of an already-matched occurrence remain to be consumed. -/
def replaceGo (old new : Str) : Str → Nat → Str
  | [], _ => []
  | _ :: t, Nat.succ k => replaceGo old new t k
  | c :: t, 0 =>
    if old.isPrefixOf (c :: t) then new ++ replaceGo old new t (old.length - 1)
    else c :: replaceGo old new t 0

/-- Python `s.replace(old, new)` for non-empty `old`: leftmost,
non-overlapping occurrences are replaced and scanning resumes after each
replacement. -/
def replaceSub (old new s : Str) : Str := replaceGo old new s 0

/-- Python `sep.join(xs)`. -/
def joinSep (sep : Str) : List Str → Str
  | [] => []
  | [t] => t
  | t :: u :: rest => t ++ sep ++ joinSep sep (u :: rest)

/-- Model of a Python list comprehension `[f(x) for x in xs]` over a function
that can raise: the first exception aborts the whole comprehension. -/
def mapOpt (f : α → Option β) : List α → Option (List β)
  | [] => some []
  | a :: t =>
    match f a, mapOpt f t with
    | some b, some bt => some (b :: bt)
    | _, _ => none

/-- Python `or`-chain over optional strings (`e.get(a) or e.get(b) or ...`):
the first value that is neither `None` nor empty, else the empty string. -/
def firstTruthyO : List (Option Str) → Str
  | [] => []
  | some s :: rest => if s ≠ [] then s else firstTruthyO rest
  | none :: rest => firstTruthyO rest

/-- Decimal digits of a string of ASCII digits, as Python `int(s)`. -/
def digitsToNat (s : Str) : Nat := s.foldl (fun n c => n * 10 + (c.toNat - 48)) 0

/-- Python `str(n)` for a natural number. -/
def natToStr (n : Nat) : Str := Nat.toDigits 10 n

/-- Python `str(i)` for an integer. -/
def intToStr (i : Int) : Str :=
  if i < 0 then '-' :: natToStr i.natAbs else natToStr i.natAbs

/-- Characters that terminate the tail of the DOI pattern
`10.\d{4,9}/[^\s"<>]+` shared by both source files (`DOI_RE`). -/
def doiBad (c : Char) : Bool := isPySpace c || c = '"' || c = '<' || c = '>'

/-- Characters that terminate the tail of the annotation DOI pattern
`10.\d{4,9}/[^\s,;]+` of `_extract_preprint_doi`. -/
def annBad (c : Char) : Bool := isPySpace c || c = ',' || c = ';'

/-- Match of the DOI pattern `10.\d{4,9}/<tail>` anchored at the start of
`s`, where `bad` delimits the tail class.  The digit count must equal the
greedy digit run: for a shorter count the next character is still a digit,
never `/`, so regex backtracking can only succeed at the full run. -/
def matchDoiAt (bad : Char → Bool) (s : Str) : Option Str :=
  match s with
  | '1' :: '0' :: '.' :: rest =>
    let ds := rest.takeWhile isDigitCh
    if 4 ≤ ds.length ∧ ds.length ≤ 9 then
      match rest.drop ds.length with
      | '/' :: tail =>
        let tok := tail.takeWhile (fun c => !bad c)
        if tok ≠ [] then some ('1' :: '0' :: '.' :: ds ++ '/' :: tok) else none
      | _ => none
    else none
  | _ => none

/-- Leftmost DOI-pattern match in `s` (`re.search` with `DOI_RE`-shaped
patterns). -/
def searchDoi (bad : Char → Bool) : Str → Option Str
  | [] => none
  | c :: t =>
    match matchDoiAt bad (c :: t) with
    | some v => some v
    | none => searchDoi bad t

/-- Model of `_first_doi` (identical in both source files). -/
def firstDoi (s : Str) : Option Str :=
  let s := clean s
  if s = [] then none else searchDoi doiBad s

/-- Left word-boundary check for the year pattern `\b(19|20)\d{2}\b`. -/
def boundaryL : Option Char → Bool
  | none => true
  | some p => !isWordChar p

/-- Right word-boundary check for the year pattern. -/
def boundaryR : Str → Bool
  | [] => true
  | r :: _ => !isWordChar r

/-- Leftmost match of `\b(19|20)\d{2}\b` in a string, returning the matched
four characters; the first argument is the character just before the current
position. -/
def yearScan : Option Char → Str → Option Str
  | prev, a :: b :: c :: d :: rest =>
    if boundaryL prev && ((a = '1' && b = '9') || (a = '2' && b = '0'))
        && isDigitCh c && isDigitCh d && boundaryR rest
    then some [a, b, c, d]
    else yearScan (some a) (b :: c :: d :: rest)
  | _, _ => none

/-- Raw record produced by the external BibTeX parser: a flat map of optional
string fields, one `Option Str` per field name the two tools consult.  `none`
models an absent key (`entry.get(k)` returning `None`). -/
structure RawEntry where
  idKey : Option Str := none
  entrytypeKey : Option Str := none
  title : Option Str := none
  author : Option Str := none
  journal : Option Str := none
  booktitle : Option Str := none
  howpublished : Option Str := none
  year : Option Str := none
  month : Option Str := none
  day : Option Str := none
  date : Option Str := none
  volume : Option Str := none
  number : Option Str := none
  issue : Option Str := none
  pages : Option Str := none
  doi : Option Str := none
  url : Option Str := none
  preprintDoi : Option Str := none
  annotationKey : Option Str := none
deriving DecidableEq

namespace BuildPub

/-- Model of `_parse_year` of `build_publications.py`: integer value of the
first `\b(19|20)\d{2}\b` token, else `0`. -/
def parseYear (s : Option Str) : Nat :=
  match yearScan none (clean (s.getD [])) with
  | some tok => digitsToNat tok
  | none => 0

/-- Worker for `collapseWs`; the boolean is true while inside a whitespace
run. -/
def collapseWsGo : Bool → Str → Str
  | _, [] => []
  | inRun, c :: t =>
    if isPySpace c then
      (if inRun then collapseWsGo true t else ' ' :: collapseWsGo true t)
    else c :: collapseWsGo false t

/-- Model of `re.sub(r"\s+", " ", txt)`: every maximal whitespace run becomes
one space. -/
def collapseWs (t : Str) : Str := collapseWsGo false t

/-- Model of `_latex_to_text`.  The call into `pylatexenc` is modelled as the
identity (see the file header); the surrounding code is from the source:
strip, convert, remove remaining braces, collapse whitespace runs to a single
space, strip. -/
def latexToText (s : Str) : Str :=
  let s := clean s
  if s = [] then []
  else clean (collapseWs (s.filter (fun c => !(c = '{' || c = '}'))))

/-- Proleptic-Gregorian leap year, as `datetime.date` uses. -/
def isLeap (y : Nat) : Bool := y % 4 = 0 && (y % 100 ≠ 0 || y % 400 = 0)

/-- Length of a month, as `datetime.date` validates it. -/
def daysInMonth (y m : Nat) : Nat :=
  if m = 2 then (if isLeap y then 29 else 28)
  else if m = 4 || m = 6 || m = 9 || m = 11 then 30
  else 31

/-- Calendar date value, the model of `datetime.date`. -/
structure SDate where
  y : Nat
  m : Nat
  d : Nat
deriving DecidableEq

/-- Model of the `datetime.date` constructor, which raises `ValueError` on an
invalid year, month or day (in that checking order). -/
def mkDate (y m d : Nat) : Except String SDate :=
  if ¬(1 ≤ y ∧ y ≤ 9999) then .error "year out of range"
  else if ¬(1 ≤ m ∧ m ≤ 12) then .error "month must be in 1..12"
  else if ¬(1 ≤ d ∧ d ≤ daysInMonth y m) then .error "day is out of range for month"
  else .ok ⟨y, m, d⟩

/-- Month-name table of `_parse_date` (`month_map`). -/
def monthMap (s : Str) : Option Nat :=
  if s = lit "jan" ∨ s = lit "january" then some 1
  else if s = lit "feb" ∨ s = lit "february" then some 2
  else if s = lit "mar" ∨ s = lit "march" then some 3
  else if s = lit "apr" ∨ s = lit "april" then some 4
  else if s = lit "may" then some 5
  else if s = lit "jun" ∨ s = lit "june" then some 6
  else if s = lit "jul" ∨ s = lit "july" then some 7
  else if s = lit "aug" ∨ s = lit "august" then some 8
  else if s = lit "sep" ∨ s = lit "september" then some 9
  else if s = lit "oct" ∨ s = lit "october" then some 10
  else if s = lit "nov" ∨ s = lit "november" then some 11
  else if s = lit "dec" ∨ s = lit "december" then some 12
  else none

/-- Whole-string digit test, Python `str.isdigit` (ASCII model). -/
def isDigits (s : Str) : Bool := !s.isEmpty && s.all isDigitCh

/-- Match of `^\s*(\d{4})-(\d{2})-(\d{2})` (`re.match`, so anchored; trailing
characters are ignored).  The fixed-width groups leave the regex engine no
backtracking freedom, so a positional check is exact. -/
def matchYMD (s : Str) : Option (Nat × Nat × Nat) :=
  match s.dropWhile isPySpace with
  | y1 :: y2 :: y3 :: y4 :: h1 :: m1 :: m2 :: h2 :: d1 :: d2 :: _ =>
    if [y1, y2, y3, y4].all isDigitCh && h1 = '-' && [m1, m2].all isDigitCh
        && h2 = '-' && [d1, d2].all isDigitCh
    then some (digitsToNat [y1, y2, y3, y4], digitsToNat [m1, m2], digitsToNat [d1, d2])
    else none
  | _ => none

/-- Match of `^\s*(\d{4})-(\d{2})` (`re.match`). -/
def matchYM (s : Str) : Option (Nat × Nat) :=
  match s.dropWhile isPySpace with
  | y1 :: y2 :: y3 :: y4 :: h1 :: m1 :: m2 :: _ =>
    if [y1, y2, y3, y4].all isDigitCh && h1 = '-' && [m1, m2].all isDigitCh
    then some (digitsToNat [y1, y2, y3, y4], digitsToNat [m1, m2])
    else none
  | _ => none

/-- Fallback branch of `_parse_date`: compose a date from the separate
`year`, `month` and `day` fields. -/
def parseDateFields (e : RawEntry) : Except String (Option SDate) :=
  let y := parseYear e.year
  if y = 0 then .ok none
  else
    let monthRaw := clean (e.month.getD [])
    let dayRaw := clean (e.day.getD [])
    let mo :=
      if monthRaw ≠ [] then
        if isDigits monthRaw then max 1 (min 12 (digitsToNat monthRaw))
        else (monthMap (stripCh '.' (lower monthRaw))).getD 1
      else 1
    let da :=
      if dayRaw ≠ [] ∧ isDigits dayRaw then max 1 (min 31 (digitsToNat dayRaw))
      else 1
    (mkDate y mo da).map some

/-- Model of `_parse_date`: try the explicit `date` field as `YYYY-MM-DD`
then `YYYY-MM`, else fall through to the separate year/month/day fields.
Exceptions of the `datetime.date` constructor propagate as `Except.error`. -/
def parseDate (e : RawEntry) : Except String (Option SDate) :=
  let d := clean (e.date.getD [])
  if d ≠ [] then
    match matchYMD d with
    | some (y, mo, da) => (mkDate y mo da).map some
    | none =>
      match matchYM d with
      | some (y, mo) => (mkDate y mo 1).map some
      | none => parseDateFields e
  else parseDateFields e

/-- Model of `_normalize_pages`. -/
def normalizePages (pages : Str) : Str :=
  let pages := clean pages
  if pages = [] then []
  else replaceSub (lit "--") (lit "-") pages

/-- Model of `_split_authors`: split the author field on the literal
separator, keep the pieces whose stripped form is non-empty, and strip
whitespace then commas from each kept piece. -/
def splitAuthors (authorField : Str) : List Str :=
  ((splitSep (lit " and ") authorField).filter (fun a => clean a ≠ [])).map
    (fun a => stripCh ',' (clean a))

/-- Reduction of one given-name token to an initial: first letter, upper-cased,
with a period. -/
def initialMark : Str → Str
  | [] => []
  | c :: _ => [c.toUpper, '.']

/-- The initials loop of `_format_one_author`: each token is stripped of
whitespace, then periods, then commas; empty tokens are skipped; the rest are
reduced to initials. -/
def mkInitials : List Str → List Str
  | [] => []
  | tok :: rest =>
    let t := stripCh ',' (stripCh '.' (clean tok))
    if t = [] then mkInitials rest else initialMark t :: mkInitials rest

/-- Separator class of the initials split, the regex `[\s\-]+`. -/
def isSepWsHyph (c : Char) : Bool := isPySpace c || c = '-'

/-- Assembly of `last` plus initials built from `given`, shared by both
branches of `_format_one_author`. -/
def lastGiven (last given : Str) : Str :=
  let inis := mkInitials (splitEvery isSepWsHyph given)
  if inis ≠ [] then last ++ lit ", " ++ joinSep (lit " ") inis else last

/-- Python `str.split()` with no argument: whitespace-run split, empty pieces
dropped. -/
def splitWsTokens (s : Str) : List Str :=
  (splitEvery isPySpace s).filter (fun t => !t.isEmpty)

/-- Model of `_format_one_author`.  The result is `none` exactly where the
Python raises: a cleaned comma-free name that still splits into zero
whitespace tokens reaches `bits[-1]` on an empty list (an `IndexError`); the
inner `none` for a missing comma is unreachable under the substring guard. -/
def formatOneAuthor (name : Str) : Option Str :=
  let name := stripCh ',' (clean (latexToText name))
  if name = [] then some []
  else if hasSubstr name [','] then
    match splitFirstCh ',' name with
    | none => none
    | some (l, g) => some (lastGiven (clean l) (clean g))
  else
    let bits := splitWsTokens name
    if bits.length = 1 then some (bits.headD [])
    else if bits = [] then none
    else some (lastGiven (bits.getLastD []) (joinSep (lit " ") bits.dropLast))

/-- Model of `_format_author_list`: format every split author, drop empty
results, then join by the house rule. -/
def formatAuthorList (authorField : Str) : Option Str :=
  match mapOpt formatOneAuthor (splitAuthors authorField) with
  | none => none
  | some fmtd =>
    let auts := fmtd.filter (fun a => a ≠ [])
    if auts = [] then some []
    else if auts.length = 1 then some (auts.headD [])
    else if auts.length = 2 then
      some (auts.headD [] ++ lit " and " ++ (auts.drop 1).headD [])
    else
      some (joinSep (lit "; ") auts.dropLast ++ lit " and " ++ auts.getLastD [])

/-- Model of `_doi_href`. -/
def doiHref (doi : Str) (url : Option Str) : Str :=
  let u := clean (url.getD [])
  if !u.isEmpty && hasSubstr (lower u) (lower doi)
      && (hasSubstr (lower u) (lit "doi") || hasSubstr u (lit "10."))
  then u
  else lit "https://doi.org/" ++ doi

/-- Match of the annotation pattern `preprintdoi\s*:\s*(10\.\d{4,9}/[^\s,;]+)`
(case-insensitive) anchored at the start of `s`. -/
def matchPreAt (s : Str) : Option Str :=
  if (lit "preprintdoi").isPrefixOf (lower s) then
    match (s.drop 11).dropWhile isPySpace with
    | ':' :: r2 => matchDoiAt annBad (r2.dropWhile isPySpace)
    | _ => none
  else none

/-- Leftmost match of the annotation pattern (`re.search`). -/
def searchPre : Str → Option Str
  | [] => none
  | c :: t =>
    match matchPreAt (c :: t) with
    | some v => some v
    | none => searchPre t

/-- Model of `_extract_preprint_doi`: a truthy dedicated field short-circuits;
otherwise the annotation field is searched for a labelled DOI. -/
def extractPreprintDoi (e : RawEntry) : Option Str :=
  let direct := e.preprintDoi.getD []
  if direct ≠ [] then firstDoi direct
  else
    let ann := clean (e.annotationKey.getD [])
    if ann = [] then none
    else searchPre ann

/-- Model of `_infer_journal`. -/
def inferJournal (e : RawEntry) (doi : Option Str) : Str :=
  let j := clean (firstTruthyO [e.journal, e.booktitle, e.howpublished])
  if j ≠ [] then j
  else
    match doi with
    | some d => if (lit "10.26434/chemrxiv").isPrefixOf (lower d) then lit "ChemRxiv" else []
    | none => []

/-- Normalized entry of `build_publications.py` (the `Entry` dataclass). -/
structure Entry where
  key : Str
  entrytype : Str
  title : Str
  author : Str
  journal : Str
  year : Nat
  volume : Str
  pages : Str
  doi : Option Str
  doi_url : Option Str
  preprint_doi : Option Str
  published_date : Option SDate
deriving DecidableEq

/-- Model of `Entry.from_bib`.  A `_parse_date` exception propagates, so a
constructed entry is the `Except.ok` case.  The source computes the DOI once
and reuses it for the journal inference; the functions are pure, so writing
the call twice is the same value. -/
def Entry.fromBib (e : RawEntry) : Except String Entry :=
  match parseDate e with
  | .error m => .error m
  | .ok publishedDate =>
    .ok
      { key := clean (e.idKey.getD [])
        entrytype := clean (e.entrytypeKey.getD [])
        title := clean (e.title.getD [])
        author := clean (e.author.getD [])
        journal := inferJournal e (firstDoi (e.doi.getD []))
        year := parseYear e.year
        volume := clean (e.volume.getD [])
        pages := clean (e.pages.getD [])
        doi := firstDoi (e.doi.getD [])
        doi_url := if clean (e.url.getD []) = [] then none
          else some (clean (e.url.getD []))
        preprint_doi := extractPreprintDoi e
        published_date := publishedDate }

/-- Date component of `Entry.sort_key`: the full date if available, else
January 1 of the year, else the 1900-01-01 fallback. -/
def resolvedDate (e : Entry) : SDate :=
  match e.published_date with
  | some d => d
  | none => if e.year ≠ 0 then ⟨e.year, 1, 1⟩ else ⟨1900, 1, 1⟩

/-- Model of `Entry.sort_key`: the pair compared by `sorted`. -/
def Entry.sortKey (e : Entry) : SDate × Str := (resolvedDate e, lower e.title)

/-- Strict `datetime.date` comparison (lexicographic on year, month, day). -/
def dateLtB (a b : SDate) : Bool :=
  a.y < b.y || (a.y = b.y && (a.m < b.m || (a.m = b.m && a.d < b.d)))

/-- Python string comparison `s ≤ t` (lexicographic on code points). -/
def strLeB : Str → Str → Bool
  | [], _ => true
  | _ :: _, [] => false
  | a :: s, b :: t =>
    if a.toNat < b.toNat then true
    else if b.toNat < a.toNat then false
    else strLeB s t

/-- Python tuple comparison `sort_key(a) ≤ sort_key(b)`. -/
def keyLeB (a b : SDate × Str) : Bool :=
  dateLtB a.1 b.1 || (a.1 = b.1 && strLeB a.2 b.2)

/-- Comparison used to model `sorted(entries, key=Entry.sort_key,
reverse=True)`: `a` may precede `b` when `b`'s key is at most `a`'s. -/
def entLeB (a b : Entry) : Bool := keyLeB b.sortKey a.sortKey

/-- Insertion step of the stable descending sort. -/
def ordInsert (x : Entry) : List Entry → List Entry
  | [] => [x]
  | y :: ys => if entLeB x y then x :: y :: ys else y :: ordInsert x ys

/-- Stable descending sort.  CPython's `sorted(..., reverse=True)` is the
stable sort by the reversed key order (equal keys keep input order); a stable
sort w.r.t. a total preorder is unique, and this insertion sort is stable for
`entLeB`, so the two agree as functions. -/
def sortRev : List Entry → List Entry
  | [] => []
  | x :: xs => ordInsert x (sortRev xs)

/-- First-occurrence deduplication, modelling `dict` key insertion order. -/
def dedupFirst : List Nat → List Nat
  | [] => []
  | x :: xs => x :: (dedupFirst xs).filter (fun y => y ≠ x)

/-- Descending sort of the year keys, `sorted(by_year.keys(), reverse=True)`. -/
def natInsertDesc (x : Nat) : List Nat → List Nat
  | [] => [x]
  | y :: ys => if y ≤ x then x :: y :: ys else y :: natInsertDesc x ys

/-- Descending sort of a list of naturals. -/
def natSortDesc : List Nat → List Nat
  | [] => []
  | x :: xs => natInsertDesc x (natSortDesc xs)

/-- Grouping stage of `build_html`: entries sorted newest-first, grouped into
year buckets (entries with year `0` excluded), buckets ordered by year
descending; each bucket keeps the sorted order. -/
def buildGroups (l : List Entry) : List (Nat × List Entry) :=
  let es := sortRev l
  let ys := natSortDesc (dedupFirst ((es.filter (fun e => e.year ≠ 0)).map (fun e => e.year)))
  ys.map (fun y => (y, es.filter (fun e => e.year = y)))

/-- Order in which `build_html` renders the entries: the concatenation of the
year buckets.  Each entry's HTML fragment is emitted in exactly this order. -/
def renderOrder (l : List Entry) : List Entry :=
  (buildGroups l).foldr (fun p acc => p.2 ++ acc) []

end BuildPub

namespace CheckMeta

/-- Model of `_parse_year` of `check_metadata.py`: the matched four-character
token itself, else the empty string. -/
def parseYearS (s : Option Str) : Str :=
  (yearScan none (clean (s.getD []))).getD []

/-- Model of `_normalize_pages` of `check_metadata.py` (same behaviour as the
builder's). -/
def normalizePages (p : Str) : Str :=
  let p := clean p
  if p ≠ [] then replaceSub (lit "--") (lit "-") p else []

/-- Normalized local record of `check_metadata.py` (the `BibItem`
dataclass). -/
structure BibItem where
  key : Str
  doi : Str
  title : Str
  journal : Str
  year : Str
  volume : Str
  issue : Str
  pages : Str
  url : Str
deriving DecidableEq

/-- Model of `load_bib`: entries without an extractable DOI are skipped; the
rest are normalized into `BibItem`s in input order. -/
def loadBib : List RawEntry → List BibItem
  | [] => []
  | e :: rest =>
    match firstDoi (e.doi.getD []) with
    | none => loadBib rest
    | some doi =>
      { key := clean (e.idKey.getD [])
        doi := doi
        title := clean (e.title.getD [])
        journal := clean (firstTruthyO [e.journal, e.booktitle, e.howpublished])
        year := parseYearS e.year
        volume := clean (e.volume.getD [])
        issue := clean (firstTruthyO [e.number, e.issue])
        pages := normalizePages (e.pages.getD [])
        url := clean (e.url.getD []) } :: loadBib rest

/-- Crossref response message, restricted to the fields `compare` and
`cr_year` consult.  `none` models an absent JSON key; an inner `none` in
`dateParts` models a non-integer JSON value (the `isinstance(..., int)`
check). -/
structure CrMsg where
  volume : Option Str := none
  issue : Option Str := none
  page : Option Str := none
  urlKey : Option Str := none
  dateParts : List (List (Option Int)) := []
deriving DecidableEq

/-- Model of `cr_year`: the first entry of the first `date-parts` component,
stringified, when it is an integer; else the empty string. -/
def crYear (m : CrMsg) : Str :=
  match m.dateParts with
  | (some i :: _) :: _ => intToStr i
  | _ => []

/-- One comparison record: field name, local value, catalog value. -/
abbrev Diff := Str × Str × Str

/-- Model of the inner `chk` of `compare`: flag the field iff the catalog
value is non-empty after trimming and the trimmed values differ; the recorded
pair carries the arguments as passed. -/
def chk (f bib cr : Str) : List Diff :=
  if clean cr ≠ [] ∧ clean bib ≠ clean cr then [(f, bib, cr)] else []

/-- Model of `compare`: year, volume, issue and pages are always checked; the
URL only when the local entry has a (truthy) URL.  The Crossref title and
container-title are extracted by the source but never compared, so they are
omitted here. -/
def compare (it : BibItem) (msg : CrMsg) : List Diff :=
  let crVol := clean (msg.volume.getD [])
  let crIssue := clean (msg.issue.getD [])
  let crPages := normalizePages (clean (msg.page.getD []))
  let crUrl := clean (msg.urlKey.getD [])
  let crY := crYear msg
  chk (lit "year") it.year crY
    ++ chk (lit "volume") it.volume crVol
    ++ chk (lit "issue") it.issue crIssue
    ++ chk (lit "pages") it.pages crPages
    ++ (if it.url ≠ [] then chk (lit "url") it.url crUrl else [])

/-- Modelled from the spec: the claimed flagging condition, written from the
claim's own words — a field among year, volume, issue, pages is flagged iff
the catalog's (extracted) value for it is non-empty after trimming and
differs after trimming from the local value; the URL additionally requires a
non-empty local URL; a flagged record carries the local and catalog values. -/
def specFlagged (it : BibItem) (msg : CrMsg) (d : Diff) : Prop :=
  (clean (crYear msg) ≠ [] ∧ clean it.year ≠ clean (crYear msg)
    ∧ d = (lit "year", it.year, crYear msg))
  ∨ (clean (clean (msg.volume.getD [])) ≠ []
    ∧ clean it.volume ≠ clean (clean (msg.volume.getD []))
    ∧ d = (lit "volume", it.volume, clean (msg.volume.getD [])))
  ∨ (clean (clean (msg.issue.getD [])) ≠ []
    ∧ clean it.issue ≠ clean (clean (msg.issue.getD []))
    ∧ d = (lit "issue", it.issue, clean (msg.issue.getD [])))
  ∨ (clean (normalizePages (clean (msg.page.getD []))) ≠ []
    ∧ clean it.pages ≠ clean (normalizePages (clean (msg.page.getD [])))
    ∧ d = (lit "pages", it.pages, normalizePages (clean (msg.page.getD []))))
  ∨ (it.url ≠ []
    ∧ clean (clean (msg.urlKey.getD [])) ≠ []
    ∧ clean it.url ≠ clean (clean (msg.urlKey.getD []))
    ∧ d = (lit "url", it.url, clean (msg.urlKey.getD [])))

/-- Model of the accumulation loop of `main`: entries whose lookup fails are
skipped; entries with a non-empty diff map are recorded in order.  The
network call `crossref_lookup` is the oracle `lookup` (`none` models a
non-200 response or a transport error). -/
def diffsByKey (lookup : Str → Option CrMsg) : List BibItem → List (Str × List Diff)
  | [] => []
  | it :: rest =>
    match lookup it.doi with
    | none => diffsByKey lookup rest
    | some msg =>
      if compare it msg = [] then diffsByKey lookup rest
      else (it.key, compare it msg) :: diffsByKey lookup rest

/-- Model of the exit status of `main`: `1` iff any diffs were recorded. -/
def mainExit (records : List RawEntry) (lookup : Str → Option CrMsg) : Nat :=
  if diffsByKey lookup (loadBib records) = [] then 0 else 1

end CheckMeta

/-- Plain ASCII letter, the character class over which the author-formatting
claims are settled. -/
def goodChar (c : Char) : Bool :=
  (lit "ABCDEFGHIJKLMNOPQRSTUVWXYZabcdefghijklmnopqrstuvwxyz").any (fun a => a = c)

/-- Non-empty token of plain ASCII letters. -/
def plainTok (t : Str) : Bool := !t.isEmpty && t.all goodChar

/-- Whitespace discipline under which `collapseWs` is the identity: every
whitespace character is a literal space and no two are adjacent. -/
def wsTidy : Str → Bool
  | [] => true
  | [a] => !isPySpace a || a = ' '
  | a :: b :: t =>
    (!isPySpace a || a = ' ') && !(isPySpace a && isPySpace b) && wsTidy (b :: t)

/-- Separator discipline for splitting a joined author field back into its
names: `sep` occurs nowhere in `n ++ sep` before position `n.length`. -/
def sepClear (sep : Str) : Str → Bool
  | [] => true
  | c :: t => !sep.isPrefixOf ((c :: t) ++ sep) && sepClear sep t

/-- Formatted form of one author name (the value inside `some`), used to
state the author-list claims. -/
def fmtA (n : Str) : Str := (BuildPub.formatOneAuthor n).getD []

/-- Example entry with title Alpha used for the ordering claim. -/
def eAlpha : BuildPub.Entry :=
  { key := lit "a", entrytype := lit "article", title := lit "Alpha", author := []
    journal := lit "J", year := 2023, volume := [], pages := [], doi := none
    doi_url := none, preprint_doi := none, published_date := some ⟨2023, 5, 1⟩ }

/-- Example entry with title Beta and the same resolved date as `eAlpha`. -/
def eBeta : BuildPub.Entry :=
  { eAlpha with key := lit "b", title := lit "Beta" }

/-- Entry produced by the loader from a record with only a year field, used
as a witness input. -/
def entYearOnly : BuildPub.Entry :=
  { key := [], entrytype := [], title := [], author := [], journal := []
    year := 2023, volume := [], pages := [], doi := none, doi_url := none
    preprint_doi := none, published_date := some ⟨2023, 1, 1⟩ }

/-- Example local item for the watcher claims: volume 7 against catalog
volume 8. -/
def itVol7 : CheckMeta.BibItem :=
  { key := lit "k", doi := lit "10.1234/x", title := [], journal := []
    year := lit "2023", volume := lit "7", issue := lit "3", pages := [], url := [] }

/-- Example catalog message for the watcher claims: volume 8, no issue. -/
def msgVol8 : CheckMeta.CrMsg :=
  { volume := some (lit "8"), dateParts := [[some (2023 : Int)]] }

/-! Basic lemmas about the string model. -/

lemma bool_eq_of_iff {a b : Bool} (h : a = true ↔ b = true) : a = b := by
  cases a <;> cases b <;> simp_all

lemma isPrefixOf_true_iff {a b : Str} : a.isPrefixOf b = true ↔ a <+: b :=
  List.isPrefixOf_iff_prefix

lemma hasSubstr_nil_iff {pat : Str} : hasSubstr [] pat = true ↔ pat = [] := by
  simp [hasSubstr, List.isEmpty_iff]

lemma hasSubstr_of_isPrefix {s p1 p2 : Str} (h : hasSubstr s p2 = true)
    (hp : p1 <+: p2) : hasSubstr s p1 = true := by
  induction s with
  | nil =>
    rw [hasSubstr_nil_iff] at h
    subst h
    rw [hasSubstr_nil_iff, List.prefix_nil.mp hp]
  | cons c t ih =>
    rw [hasSubstr, Bool.or_eq_true] at h ⊢
    rcases h with h | h
    · exact Or.inl (isPrefixOf_true_iff.mpr (hp.trans (isPrefixOf_true_iff.mp h)))
    · exact Or.inr (ih h)

lemma hasSubstr_map {s p : Str} (f : Char → Char) (h : hasSubstr s p = true) :
    hasSubstr (s.map f) (p.map f) = true := by
  induction s with
  | nil =>
    rw [hasSubstr_nil_iff] at h
    subst h
    simp [hasSubstr]
  | cons c t ih =>
    rw [hasSubstr, Bool.or_eq_true] at h
    rw [List.map_cons, hasSubstr, Bool.or_eq_true]
    rcases h with h | h
    · exact Or.inl (isPrefixOf_true_iff.mpr
        (by simpa using (isPrefixOf_true_iff.mp h).map f))
    · exact Or.inr (ih h)

lemma hasSubstr_false_of_ne_nil {pat : Str} (h : pat ≠ []) :
    hasSubstr [] pat = false := by
  cases hp : hasSubstr [] pat
  · rfl
  · exact absurd (hasSubstr_nil_iff.mp hp) h

lemma hasSubstr_singleton_iff {s : Str} {c : Char} :
    hasSubstr s [c] = true ↔ c ∈ s := by
  induction s with
  | nil => simp [hasSubstr]
  | cons a t ih =>
    rw [hasSubstr, Bool.or_eq_true, ih]
    constructor
    · rintro (h | h)
      · have := isPrefixOf_true_iff.mp h
        rcases this with ⟨u, hu⟩
        simp only [List.singleton_append, List.cons.injEq] at hu
        exact hu.1 ▸ List.mem_cons_self a t
      · exact List.mem_cons_of_mem a h
    · intro h
      rcases List.mem_cons.mp h with h | h
      · left
        subst h
        exact isPrefixOf_true_iff.mpr ⟨t, rfl⟩
      · exact Or.inr h

lemma replaceGo_id {old new s : Str} (h : hasSubstr s old = false) :
    replaceGo old new s 0 = s := by
  induction s with
  | nil => rfl
  | cons c t ih =>
    rw [hasSubstr, Bool.or_eq_false_iff] at h
    rw [replaceGo, if_neg (by simp [h.1])]
    exact congrArg (c :: ·) (ih h.2)

/-! Claim C3.  The spec says every field normalizer is total and `_parse_date`
never raises; the clamping in the source (`max(1, min(12, ...))`,
`max(1, min(31, ...))`) shows that totality is the intent, but the day clamp
is not month-aware and the explicit `date` branch is not validated at all, so
`datetime.date` raises `ValueError` for, e.g., February 31 or a `date` field
of `2024-13-45`. -/

/-- C3: evaluating `_parse_date` at the claim's own example inputs shows the
constructor exception escaping: a record with year 2023, month 2, day 31
raises `day is out of range for month`, and a `date` field `2024-13-45`
raises `month must be in 1..12`, contradicting `never throws`. -/
theorem c3_parse_date_raises :
    BuildPub.parseDate
        { year := some (lit "2023"), month := some (lit "2"), day := some (lit "31") }
      = Except.error "day is out of range for month"
    ∧ BuildPub.parseDate { date := some (lit "2024-13-45") }
      = Except.error "month must be in 1..12" :=
  ⟨rfl, rfl⟩

/-! Claim C5.  The claim forgets that `_normalize_pages` first strips
whitespace, so a page string with leading or trailing whitespace is not
returned unchanged. -/

/-- C5 counterexample: a page string with surrounding whitespace and no
double hyphen is returned trimmed, not unchanged. -/
theorem c5_counterexample :
    BuildPub.normalizePages (lit " 123-130 ") = lit "123-130"
    ∧ lit " 123-130 " ≠ lit "123-130"
    ∧ hasSubstr (lit " 123-130 ") (lit "--") = false := by
  refine ⟨rfl, by decide, by decide⟩

/-- C5 (amended): `_normalize_pages` first trims whitespace; a trimmed page
string without a double hyphen is returned unchanged, and each `--` of a
trimmed string is replaced by a single `-` (for example `123--130` becomes
`123-130`, and ` 123--130 ` is first trimmed). -/
theorem c5_pages_normalization :
    (∀ p : Str, clean p = p → hasSubstr p (lit "--") = false →
      BuildPub.normalizePages p = p)
    ∧ BuildPub.normalizePages (lit " 123--130 ") = lit "123-130"
    ∧ BuildPub.normalizePages (lit "123--130") = lit "123-130" := by
  refine ⟨?_, rfl, rfl⟩
  intro p h1 h2
  rw [BuildPub.normalizePages, h1]
  by_cases hp : p = []
  · simp [hp]
  · simp only [hp, if_neg hp, ite_false]
    exact replaceGo_id h2

/-- C5 witness: the general part of the amended claim applied to the concrete
trimmed page string `123-130`. -/
theorem c5_pages_normalization_witness :
    BuildPub.normalizePages (lit "123-130") = lit "123-130" :=
  c5_pages_normalization.1 (lit "123-130") (by decide) (by decide)

/-! Claim C4.  The if-and-only-if part of the claim matches `_doi_href`, but
its final sentence does not: every DOI extracted by `DOI_RE` begins with
`10.`, so a stored URL containing the DOI always also contains `10.` and is
used verbatim; lacking the substring `doi` never forces the fallback. -/

/-- C4 counterexample: a stored URL that contains the DOI but not the
substring `doi` is returned verbatim, where the claim demands the canonical
resolver URL. -/
theorem c4_counterexample :
    BuildPub.doiHref (lit "10.1234/abc") (some (lit "https://example.com/10.1234/abc"))
      = lit "https://example.com/10.1234/abc"
    ∧ hasSubstr (lower (lit "https://example.com/10.1234/abc")) (lit "doi") = false
    ∧ hasSubstr (lower (lit "https://example.com/10.1234/abc"))
        (lower (lit "10.1234/abc")) = true
    ∧ lit "https://example.com/10.1234/abc" ≠ lit "https://doi.org/" ++ lit "10.1234/abc" := by
  refine ⟨rfl, by decide, by decide, by decide⟩

/-- C4 (amended): for a DOI beginning with `10.` (as every DOI extracted by
`DOI_RE` does), a stored URL that textually contains the DOI is always the
hyperlink target verbatim — the `doi`-or-`10.` token requirement is satisfied
automatically — and when the stored URL does not contain the DOI even
case-insensitively, the hyperlink targets exactly `https://doi.org/` followed
by the DOI. -/
theorem c4_doi_href (doi : Str) (url : Option Str) (h10 : lit "10." <+: doi) :
    (hasSubstr (clean (url.getD [])) doi = true →
      BuildPub.doiHref doi url = clean (url.getD []))
    ∧ (hasSubstr (lower (clean (url.getD []))) (lower doi) = false →
      BuildPub.doiHref doi url = lit "https://doi.org/" ++ doi) := by
  constructor
  · intro h
    have hne : clean (url.getD []) ≠ [] := by
      intro he
      rw [he] at h
      have : doi ≠ [] := by
        intro hd
        rw [hd] at h10
        exact absurd (List.prefix_nil.mp h10) (by decide)
      rw [hasSubstr_false_of_ne_nil this] at h
      exact Bool.false_ne_true h
    have hlow : hasSubstr (lower (clean (url.getD []))) (lower doi) = true :=
      hasSubstr_map Char.toLower h
    have h10s : hasSubstr (clean (url.getD [])) (lit "10.") = true :=
      hasSubstr_of_isPrefix h h10
    rw [BuildPub.doiHref]
    simp only [hlow, h10s, Bool.or_true, Bool.and_true]
    rw [if_pos]
    simp [List.isEmpty_iff, hne]
  · intro h
    rw [BuildPub.doiHref]
    simp [h]

/-- C4 witness: the amended claim's verbatim branch at a Science-style landing
page URL that contains both the DOI and the token `doi`. -/
theorem c4_doi_href_witness :
    BuildPub.doiHref (lit "10.1234/abc")
        (some (lit "https://www.science.org/doi/10.1234/abc"))
      = lit "https://www.science.org/doi/10.1234/abc" :=
  (c4_doi_href (lit "10.1234/abc")
    (some (lit "https://www.science.org/doi/10.1234/abc")) (by decide)).1 (by decide)

/-! Claim C10: a truthy dedicated `preprint_doi` field short-circuits
`_extract_preprint_doi`; the annotation is never consulted. -/

/-- C10: whenever the dedicated preprint-DOI field is present and non-empty,
`_extract_preprint_doi` returns the first DOI-pattern match inside that field
(`_first_doi`), hence `none` when that value has no DOI-shaped substring, and
the annotation field is ignored even when it carries a labelled preprint DOI
that would otherwise match. -/
theorem c10_preprint_doi :
    (∀ (e : RawEntry) (v : Str), e.preprintDoi = some v → v ≠ [] →
      BuildPub.extractPreprintDoi e = firstDoi v)
    ∧ BuildPub.extractPreprintDoi
        { preprintDoi := some (lit "no match here")
          annotationKey := some (lit "preprintdoi: 10.26434/chemrxiv-2024-abc") } = none
    ∧ BuildPub.extractPreprintDoi
        { annotationKey := some (lit "preprintdoi: 10.26434/chemrxiv-2024-abc") }
      = some (lit "10.26434/chemrxiv-2024-abc") := by
  refine ⟨?_, rfl, rfl⟩
  intro e v hv hne
  rw [BuildPub.extractPreprintDoi, hv]
  simp [hne]

/-- C10 witness: the general part applied to a concrete record whose
dedicated field holds a ChemRxiv DOI inside surrounding text. -/
theorem c10_preprint_doi_witness :
    BuildPub.extractPreprintDoi { preprintDoi := some (lit "see 10.26434/chemrxiv-2024-abc v2") }
      = firstDoi (lit "see 10.26434/chemrxiv-2024-abc v2") :=
  c10_preprint_doi.1 { preprintDoi := some (lit "see 10.26434/chemrxiv-2024-abc v2") }
    (lit "see 10.26434/chemrxiv-2024-abc v2") rfl (by decide)

/-! Claim C9: the year invariant of the loader. -/

lemma yearScan_range (s : Str) : ∀ (prev : Option Char) (tok : Str),
    yearScan prev s = some tok →
    1900 ≤ digitsToNat tok ∧ digitsToNat tok ≤ 2099 := by
  induction s with
  | nil => intro prev tok h; exact absurd h (by simp [yearScan])
  | cons a t ih =>
    intro prev tok h
    rcases t with _ | ⟨b, _ | ⟨c, _ | ⟨d, rest⟩⟩⟩
    · exact absurd h (by simp [yearScan])
    · exact absurd h (by simp [yearScan])
    · exact absurd h (by simp [yearScan])
    · simp only [yearScan] at h
      split at h
      · next hcond =>
        simp only [Option.some.injEq] at h
        subst h
        simp only [Bool.and_eq_true, Bool.or_eq_true, decide_eq_true_eq] at hcond
        obtain ⟨⟨⟨⟨-, h19or20⟩, hc⟩, hd⟩, -⟩ := hcond
        simp only [isDigitCh, Bool.and_eq_true, decide_eq_true_eq] at hc hd
        simp only [digitsToNat, List.foldl]
        rcases h19or20 with ⟨ha, hb⟩ | ⟨ha, hb⟩ <;> subst ha <;> subst hb <;>
          · have e1 : ('1' : Char).toNat = 49 := rfl
            have e9 : ('9' : Char).toNat = 57 := rfl
            have e2 : ('2' : Char).toNat = 50 := rfl
            have e0 : ('0' : Char).toNat = 48 := rfl
            omega
      · exact ih (some a) tok h

/-- C9: every entry the loader constructs has a year that is either the
sentinel 0 or a number in 1900..2099 (a 4-digit number starting 19 or 20),
because `_parse_year` only ever returns the value of a `(19|20)\d\d` token or
0. -/
theorem c9_year_range (e : RawEntry) (ent : BuildPub.Entry)
    (h : BuildPub.Entry.fromBib e = Except.ok ent) :
    ent.year = 0 ∨ (1900 ≤ ent.year ∧ ent.year ≤ 2099) := by
  have hy : ent.year = BuildPub.parseYear e.year := by
    rw [BuildPub.Entry.fromBib] at h
    cases hd : BuildPub.parseDate e with
    | error m =>
      rw [hd] at h
      exact absurd h (by simp)
    | ok pd =>
      rw [hd] at h
      have h2 := Except.ok.inj h
      rw [← h2]
  rw [hy, BuildPub.parseYear]
  cases hs : yearScan none (clean (e.year.getD [])) with
  | none => exact Or.inl rfl
  | some tok => exact Or.inr (yearScan_range _ none tok hs)

/-- C9 witness: the invariant applied to the entry built from a record whose
year field is 2023. -/
theorem c9_year_range_witness :
    BuildPub.Entry.fromBib { year := some (lit "2023") } = Except.ok entYearOnly
    ∧ (entYearOnly.year = 0 ∨ (1900 ≤ entYearOnly.year ∧ entYearOnly.year ≤ 2099)) :=
  ⟨rfl, c9_year_range { year := some (lit "2023") } entYearOnly rfl⟩

/-! Claim C7: the flagging condition of the watcher's `compare`. -/

lemma mem_chk {d : CheckMeta.Diff} {f b c : Str} :
    d ∈ CheckMeta.chk f b c ↔ (clean c ≠ [] ∧ clean b ≠ clean c ∧ d = (f, b, c)) := by
  rw [CheckMeta.chk]
  by_cases hc : clean c ≠ [] ∧ clean b ≠ clean c
  · rw [if_pos hc]
    simp [hc.1, hc.2]
  · rw [if_neg hc]
    simp only [List.not_mem_nil, false_iff]
    rintro ⟨h1, h2, rfl⟩
    exact hc ⟨h1, h2⟩

/-- C7: a diff record is produced by `compare` exactly under the claim's
condition (`specFlagged`, written from the claim: the catalog value for the
field is non-empty after trimming and differs after trimming from the local
value; the URL is compared only when the local URL is non-empty), and an
entry whose catalog message has no issue value never yields an issue diff. -/
theorem c7_compare_flags (it : CheckMeta.BibItem) (msg : CheckMeta.CrMsg) :
    (∀ d : CheckMeta.Diff, d ∈ CheckMeta.compare it msg ↔ CheckMeta.specFlagged it msg d)
    ∧ (clean (msg.issue.getD []) = [] →
        ∀ b c : Str, (lit "issue", b, c) ∉ CheckMeta.compare it msg) := by
  have hiff : ∀ d : CheckMeta.Diff,
      d ∈ CheckMeta.compare it msg ↔ CheckMeta.specFlagged it msg d := by
    intro d
    rw [CheckMeta.specFlagged]
    simp only [CheckMeta.compare, List.mem_append, mem_chk, or_assoc]
    by_cases hurl : it.url ≠ []
    · rw [if_pos hurl]
      simp only [mem_chk]
      constructor
      · rintro (h | h | h | h | h)
        exacts [Or.inl h, Or.inr (Or.inl h), Or.inr (Or.inr (Or.inl h)),
          Or.inr (Or.inr (Or.inr (Or.inl h))),
          Or.inr (Or.inr (Or.inr (Or.inr ⟨hurl, h⟩)))]
      · rintro (h | h | h | h | h)
        exacts [Or.inl h, Or.inr (Or.inl h), Or.inr (Or.inr (Or.inl h)),
          Or.inr (Or.inr (Or.inr (Or.inl h))),
          Or.inr (Or.inr (Or.inr (Or.inr h.2)))]
    · rw [if_neg hurl]
      simp only [List.not_mem_nil, or_false]
      constructor
      · rintro (h | h | h | h)
        exacts [Or.inl h, Or.inr (Or.inl h), Or.inr (Or.inr (Or.inl h)),
          Or.inr (Or.inr (Or.inr (Or.inl h)))]
      · rintro (h | h | h | h | h)
        exacts [Or.inl h, Or.inr (Or.inl h), Or.inr (Or.inr (Or.inl h)),
          Or.inr (Or.inr (Or.inr h)), absurd h.1 hurl]
  refine ⟨hiff, ?_⟩
  intro hiss b c hmem
  have hs := (hiff (lit "issue", b, c)).mp hmem
  rcases hs with h | h | h | h | h
  · obtain ⟨-, -, heq⟩ := h
    have hf : lit "issue" = lit "year" := congrArg Prod.fst heq
    exact absurd hf (by decide)
  · obtain ⟨-, -, heq⟩ := h
    have hf : lit "issue" = lit "volume" := congrArg Prod.fst heq
    exact absurd hf (by decide)
  · obtain ⟨hcc, -, -⟩ := h
    rw [hiss] at hcc
    exact hcc rfl
  · obtain ⟨-, -, heq⟩ := h
    have hf : lit "issue" = lit "pages" := congrArg Prod.fst heq
    exact absurd hf (by decide)
  · obtain ⟨-, -, -, heq⟩ := h
    have hf : lit "issue" = lit "url" := congrArg Prod.fst heq
    exact absurd hf (by decide)

/-- C7 witness: volume 7 against catalog volume 8 yields exactly the diff
(volume, 7, 8), and with no catalog issue value there is no issue diff for
any local value. -/
theorem c7_compare_flags_witness :
    CheckMeta.compare itVol7 msgVol8 = [(lit "volume", lit "7", lit "8")]
    ∧ (lit "issue", lit "3", lit "9") ∉ CheckMeta.compare itVol7 msgVol8 :=
  ⟨by decide, (c7_compare_flags itVol7 msgVol8).2 (by decide) (lit "3") (lit "9")⟩

/-! Claim C8: the watcher's exit status. -/

lemma diffsByKey_nil_iff (lookup : Str → Option CheckMeta.CrMsg)
    (items : List CheckMeta.BibItem) :
    CheckMeta.diffsByKey lookup items = [] ↔
      ∀ it ∈ items, ∀ msg, lookup it.doi = some msg →
        CheckMeta.compare it msg = [] := by
  induction items with
  | nil => simp [CheckMeta.diffsByKey]
  | cons it rest ih =>
    cases hl : lookup it.doi with
    | none =>
      simp only [CheckMeta.diffsByKey, hl, ih, List.forall_mem_cons]
      constructor
      · intro h
        refine ⟨fun msg hm => ?_, h⟩
        exact absurd hm (by simp)
      · intro h
        exact h.2
    | some msg =>
      simp only [CheckMeta.diffsByKey, hl, List.forall_mem_cons]
      by_cases hds : CheckMeta.compare it msg = []
      · rw [if_pos hds, ih]
        constructor
        · intro h
          refine ⟨fun msg2 hm2 => ?_, h⟩
          obtain rfl : msg = msg2 := by injection hm2
          exact hds
        · intro h
          exact h.2
      · rw [if_neg hds]
        constructor
        · intro h
          exact absurd h (by simp)
        · intro h
          exact absurd (h.1 msg rfl) hds

/-- C8: the watcher exits 0 iff every looked-up entry compares clean (in
particular when no entry has a DOI or every lookup fails), and exits 1 iff
some looked-up entry produces at least one flagged field difference. -/
theorem c8_exit_status (records : List RawEntry) (lookup : Str → Option CheckMeta.CrMsg) :
    (CheckMeta.mainExit records lookup = 0 ↔
      ∀ it ∈ CheckMeta.loadBib records, ∀ msg, lookup it.doi = some msg →
        CheckMeta.compare it msg = [])
    ∧ (CheckMeta.mainExit records lookup = 1 ↔
      ∃ it ∈ CheckMeta.loadBib records, ∃ msg, lookup it.doi = some msg ∧
        CheckMeta.compare it msg ≠ []) := by
  rw [CheckMeta.mainExit]
  by_cases h : CheckMeta.diffsByKey lookup (CheckMeta.loadBib records) = []
  · rw [if_pos h]
    constructor
    · simp only [true_iff]
      exact (diffsByKey_nil_iff _ _).mp h
    · simp only [Nat.zero_ne_one, false_iff]
      rintro ⟨it, hit, msg, hm, hneq⟩
      exact hneq ((diffsByKey_nil_iff _ _).mp h it hit msg hm)
  · rw [if_neg h]
    constructor
    · simp only [Nat.one_ne_zero, false_iff]
      intro hall
      exact h ((diffsByKey_nil_iff _ _).mpr hall)
    · simp only [true_iff]
      have hna : ¬ ∀ it ∈ CheckMeta.loadBib records, ∀ msg, lookup it.doi = some msg →
          CheckMeta.compare it msg = [] :=
        fun hall => h ((diffsByKey_nil_iff _ _).mpr hall)
      push_neg at hna
      obtain ⟨it, hit, msg, hm, hneq⟩ := hna
      exact ⟨it, hit, msg, hm, hneq⟩

/-! Claim C2: the order of entries in the rendered output.  The source sorts
with `reverse=True` on the composite key, which reverses the title tie-break
as well: equal dates are ordered by lower-cased title descending, not
ascending. -/

section SortOrder

open BuildPub

lemma strLeB_total (s : Str) : ∀ t : Str, strLeB s t = true ∨ strLeB t s = true := by
  induction s with
  | nil => intro t; exact Or.inl rfl
  | cons a s ih =>
    intro t
    cases t with
    | nil => exact Or.inr rfl
    | cons b t =>
      simp only [strLeB]
      by_cases hab : a.toNat < b.toNat
      · left
        rw [if_pos hab]
      · by_cases hba : b.toNat < a.toNat
        · right
          rw [if_pos hba]
        · rw [if_neg hab, if_neg hba, if_neg hba, if_neg hab]
          exact ih t

lemma strLeB_trans (s : Str) : ∀ (t u : Str),
    strLeB s t = true → strLeB t u = true → strLeB s u = true := by
  induction s with
  | nil => intro t u h1 h2; rfl
  | cons a s ih =>
    intro t u h1 h2
    cases t with
    | nil => exact absurd h1 (by simp [strLeB])
    | cons b t =>
      cases u with
      | nil => exact absurd h2 (by simp [strLeB])
      | cons c u =>
        simp only [strLeB] at h1 h2 ⊢
        split_ifs at h1 h2 ⊢ <;>
          first
          | rfl
          | exact Bool.noConfusion h1
          | exact Bool.noConfusion h2
          | exact ih t u h1 h2
          | (exfalso; omega)

lemma dateLtB_irrefl (d : SDate) : dateLtB d d = false := by
  simp [dateLtB]

lemma dateLtB_trans {a b c : SDate} (h1 : dateLtB a b = true)
    (h2 : dateLtB b c = true) : dateLtB a c = true := by
  cases a
  cases b
  cases c
  simp only [dateLtB, Bool.or_eq_true, Bool.and_eq_true, decide_eq_true_eq] at h1 h2 ⊢
  omega

lemma dateLtB_tri (a b : SDate) : dateLtB a b = true ∨ a = b ∨ dateLtB b a = true := by
  cases a
  cases b
  simp only [dateLtB, SDate.mk.injEq, Bool.or_eq_true, Bool.and_eq_true,
    decide_eq_true_eq]
  omega

lemma keyLeB_total (k1 k2 : SDate × Str) :
    keyLeB k1 k2 = true ∨ keyLeB k2 k1 = true := by
  simp only [keyLeB, Bool.or_eq_true, Bool.and_eq_true, decide_eq_true_eq]
  rcases dateLtB_tri k1.1 k2.1 with h | h | h
  · exact Or.inl (Or.inl h)
  · rcases strLeB_total k1.2 k2.2 with hs | hs
    · exact Or.inl (Or.inr ⟨h, hs⟩)
    · exact Or.inr (Or.inr ⟨h.symm, hs⟩)
  · exact Or.inr (Or.inl h)

lemma keyLeB_trans {k1 k2 k3 : SDate × Str} (h1 : keyLeB k1 k2 = true)
    (h2 : keyLeB k2 k3 = true) : keyLeB k1 k3 = true := by
  simp only [keyLeB, Bool.or_eq_true, Bool.and_eq_true, decide_eq_true_eq] at h1 h2 ⊢
  rcases h1 with h1 | ⟨he1, hs1⟩
  · rcases h2 with h2 | ⟨he2, hs2⟩
    · exact Or.inl (dateLtB_trans h1 h2)
    · exact Or.inl (he2 ▸ h1)
  · rcases h2 with h2 | ⟨he2, hs2⟩
    · exact Or.inl (he1 ▸ h2)
    · exact Or.inr ⟨he1.trans he2, strLeB_trans _ _ _ hs1 hs2⟩

lemma entLeB_total (a b : Entry) : entLeB a b = true ∨ entLeB b a = true := by
  rw [entLeB, entLeB]
  rcases keyLeB_total b.sortKey a.sortKey with h | h
  · exact Or.inl h
  · exact Or.inr h

lemma entLeB_trans {a b c : Entry} (h1 : entLeB a b = true)
    (h2 : entLeB b c = true) : entLeB a c = true := by
  rw [entLeB] at h1 h2 ⊢
  exact keyLeB_trans h2 h1

lemma mem_ordInsert {x z : Entry} {l : List Entry} (h : z ∈ ordInsert x l) :
    z = x ∨ z ∈ l := by
  induction l with
  | nil =>
    rw [ordInsert] at h
    exact Or.inl (List.mem_singleton.mp h)
  | cons y ys ih =>
    rw [ordInsert] at h
    by_cases he : entLeB x y = true
    · rw [if_pos he] at h
      rcases List.mem_cons.mp h with rfl | h
      · exact Or.inl rfl
      · exact Or.inr h
    · rw [if_neg he] at h
      rcases List.mem_cons.mp h with rfl | h
      · exact Or.inr (List.mem_cons_self _ _)
      · rcases ih h with h | h
        · exact Or.inl h
        · exact Or.inr (List.mem_cons_of_mem _ h)

lemma pairwise_ordInsert (x : Entry) (l : List Entry)
    (hl : l.Pairwise (fun a b => entLeB a b = true)) :
    (ordInsert x l).Pairwise (fun a b => entLeB a b = true) := by
  induction l with
  | nil => simp [ordInsert]
  | cons y ys ih =>
    rw [List.pairwise_cons] at hl
    obtain ⟨hy, hys⟩ := hl
    rw [ordInsert]
    by_cases he : entLeB x y = true
    · rw [if_pos he, List.pairwise_cons]
      refine ⟨?_, List.pairwise_cons.mpr ⟨hy, hys⟩⟩
      intro z hz
      rcases List.mem_cons.mp hz with rfl | hz
      · exact he
      · exact entLeB_trans he (hy z hz)
    · rw [if_neg he, List.pairwise_cons]
      refine ⟨?_, ih hys⟩
      intro z hz
      rcases mem_ordInsert hz with hzx | hz
      · rw [hzx]
        rcases entLeB_total x y with h | h
        · exact absurd h he
        · exact h
      · exact hy z hz

lemma pairwise_sortRev (l : List Entry) :
    (sortRev l).Pairwise (fun a b => entLeB a b = true) := by
  induction l with
  | nil => simp [sortRev]
  | cons x xs ih => exact pairwise_ordInsert x (sortRev xs) ih

lemma buildGroups_snd {l : List Entry} {y : Nat} {g : List Entry}
    (h : (y, g) ∈ buildGroups l) :
    g = (sortRev l).filter (fun e => e.year = y) := by
  simp only [buildGroups, List.mem_map, Prod.mk.injEq] at h
  obtain ⟨y2, -, hy, hg⟩ := h
  rw [← hg, ← hy]

/-- C2 (amended): within every year section of the rendered output the sorted
order breaks equal resolved dates by case-folded title descending: of two
equal-dated entries in a section, the earlier one's lower-cased title is
lexicographically at least the later one's (so the larger title appears
first; equal keys keep input order by sort stability). -/
theorem c2_group_order (l : List Entry) (y : Nat) (g : List Entry)
    (h : (y, g) ∈ BuildPub.buildGroups l) :
    g.Pairwise (fun a b => BuildPub.resolvedDate a = BuildPub.resolvedDate b →
      BuildPub.strLeB (lower b.title) (lower a.title) = true) := by
  have hg := buildGroups_snd h
  subst hg
  have hp : ((sortRev l).filter (fun e => e.year = y)).Pairwise
      (fun a b => entLeB a b = true) :=
    (pairwise_sortRev l).sublist (List.filter_sublist (sortRev l))
  refine hp.imp ?_
  intro a b hab hd
  simp only [entLeB, keyLeB, Entry.sortKey, Bool.or_eq_true, Bool.and_eq_true,
    decide_eq_true_eq] at hab
  rcases hab with hlt | ⟨-, hs⟩
  · rw [hd] at hlt
    rw [dateLtB_irrefl] at hlt
    exact absurd hlt Bool.false_ne_true
  · exact hs

/-- C2 witness: the amended ordering property at the concrete two-entry group
produced from `eAlpha` and `eBeta`. -/
theorem c2_group_order_witness :
    List.Pairwise (fun a b => BuildPub.resolvedDate a = BuildPub.resolvedDate b →
      BuildPub.strLeB (lower b.title) (lower a.title) = true) [eBeta, eAlpha] :=
  c2_group_order [eAlpha, eBeta] 2023 [eBeta, eAlpha] (by decide)

/-- C2 counterexample: two entries with the same resolved date, titles Alpha
and Beta, render with Beta first although Alpha's case-folded title is
strictly smaller — the claimed ascending tie-break does not hold. -/
theorem c2_counterexample :
    BuildPub.renderOrder [eAlpha, eBeta] = [eBeta, eAlpha]
    ∧ BuildPub.resolvedDate eAlpha = BuildPub.resolvedDate eBeta
    ∧ BuildPub.strLeB (lower eAlpha.title) (lower eBeta.title) = true
    ∧ lower eAlpha.title ≠ lower eBeta.title := by
  refine ⟨by decide, rfl, by decide, by decide⟩

end SortOrder

/-! Claims C1 and C6: the author-name formatting pipeline.  The lemmas below
settle the pipeline over names made of plain ASCII-letter tokens, the shape
the claims quantify over ("Last, First Middle"). -/

section AuthorFormat

open BuildPub

lemma goodChar_spec (c : Char) (h : goodChar c = true) :
    isPySpace c = false ∧ isSepWsHyph c = false ∧ ¬(c = ',') ∧ ¬(c = '.')
      ∧ ¬(c = '-') ∧ ¬(c = '{') ∧ ¬(c = '}') := by
  have hall : (lit "ABCDEFGHIJKLMNOPQRSTUVWXYZabcdefghijklmnopqrstuvwxyz").all
      (fun a => !isPySpace a && !isSepWsHyph a && !(a = ',') && !(a = '.')
        && !(a = '-') && !(a = '{') && !(a = '}')) = true := by decide
  rw [goodChar, List.any_eq_true] at h
  obtain ⟨a, ha, hac⟩ := h
  simp only [decide_eq_true_eq] at hac
  subst hac
  have hp := List.all_eq_true.mp hall a ha
  simp only [Bool.and_eq_true, Bool.not_eq_true', decide_eq_false_iff_not] at hp
  exact ⟨hp.1.1.1.1.1.1, hp.1.1.1.1.1.2, hp.1.1.1.1.2, hp.1.1.1.2, hp.1.1.2,
    hp.1.2, hp.2⟩

lemma plainTok_ne_nil {t : Str} (h : plainTok t = true) : t ≠ [] := by
  rw [plainTok, Bool.and_eq_true, Bool.not_eq_true'] at h
  exact fun he => by simp [he] at h

lemma plainTok_good {t : Str} (h : plainTok t = true) : ∀ c ∈ t, goodChar c = true := by
  rw [plainTok, Bool.and_eq_true] at h
  exact List.all_eq_true.mp h.2

lemma dropWhile_eq_self_of_head (p : Char → Bool) (s : Str)
    (h : ∀ c, s.head? = some c → p c = false) : s.dropWhile p = s := by
  cases s with
  | nil => rfl
  | cons a t => simp [List.dropWhile_cons, h a rfl]

lemma stripP_eq_self (p : Char → Bool) (s : Str)
    (h1 : ∀ c, s.head? = some c → p c = false)
    (h2 : ∀ c, s.getLast? = some c → p c = false) : stripP p s = s := by
  rw [stripP, dropWhile_eq_self_of_head p s h1, dropEndP,
    dropWhile_eq_self_of_head p s.reverse
      (fun c hc => h2 c (by rwa [List.head?_reverse] at hc)),
    List.reverse_reverse]

lemma head?_append_left {a : Str} (b : Str) (h : a ≠ []) :
    (a ++ b).head? = a.head? := by
  cases a with
  | nil => exact absurd rfl h
  | cons x t => rfl

lemma joinSep_cons2 (sep t u : Str) (rest : List Str) :
    joinSep sep (t :: u :: rest) = t ++ sep ++ joinSep sep (u :: rest) := rfl

lemma joinSep_head? (sep t : Str) (ts : List Str) (h : t ≠ []) :
    (joinSep sep (t :: ts)).head? = t.head? := by
  cases ts with
  | nil => rfl
  | cons u rest =>
    rw [joinSep_cons2, List.append_assoc]
    exact head?_append_left _ h

lemma joinSep_ne_nil (sep t : Str) (ts : List Str) (h : t ≠ []) :
    joinSep sep (t :: ts) ≠ [] := by
  intro he
  have := joinSep_head? sep t ts h
  rw [he] at this
  cases t with
  | nil => exact h rfl
  | cons x u => exact Option.noConfusion this

lemma joinSep_getLast? (sep : Str) : ∀ (ts : List Str) (t0 : Str),
    (∀ u ∈ ts, u ≠ []) →
    (joinSep sep (t0 :: ts)).getLast? = ((t0 :: ts).getLastD []).getLast? := by
  intro ts
  induction ts with
  | nil => intro t0 _; rfl
  | cons u rest ih =>
    intro t0 hu
    rw [joinSep_cons2]
    rw [List.getLast?_append_of_ne_nil (t0 ++ sep)
      (joinSep_ne_nil sep u rest (hu u (List.mem_cons_self u rest)))]
    rw [ih u (fun v hv => hu v (List.mem_cons_of_mem u hv))]
    simp [List.getLastD_cons]

lemma mem_joinSep (sep : Str) : ∀ (ts : List Str) (c : Char), c ∈ joinSep sep ts →
    c ∈ sep ∨ ∃ t ∈ ts, c ∈ t := by
  intro ts
  induction ts with
  | nil => intro c hc; exact absurd hc (List.not_mem_nil c)
  | cons t rest ih =>
    intro c hc
    cases rest with
    | nil => exact Or.inr ⟨t, List.mem_cons_self t [], hc⟩
    | cons u rest2 =>
      rw [joinSep_cons2, List.append_assoc] at hc
      rcases List.mem_append.mp hc with hc | hc
      · exact Or.inr ⟨t, List.mem_cons_self t _, hc⟩
      · rcases List.mem_append.mp hc with hc | hc
        · exact Or.inl hc
        · rcases ih c hc with hc | ⟨v, hv, hcv⟩
          · exact Or.inl hc
          · exact Or.inr ⟨v, List.mem_cons_of_mem t hv, hcv⟩

lemma not_hasSubstr_singleton {s : Str} {c : Char} (h : c ∉ s) :
    hasSubstr s [c] = false := by
  cases hh : hasSubstr s [c] with
  | false => rfl
  | true => exact absurd (hasSubstr_singleton_iff.mp hh) h

lemma wsTidy_of_no_space : ∀ s : Str, (∀ c ∈ s, isPySpace c = false) →
    wsTidy s = true := by
  intro s
  induction s with
  | nil => intro _; rfl
  | cons a t ih =>
    intro h
    cases t with
    | nil => simp [wsTidy, h a (List.mem_cons_self a [])]
    | cons b t2 =>
      rw [wsTidy]
      simp only [Bool.and_eq_true, Bool.or_eq_true, Bool.not_eq_true']
      refine ⟨⟨Or.inl (by simp [h a (List.mem_cons_self a _)]), ?_⟩,
        ih (fun c hc => h c (List.mem_cons_of_mem a hc))⟩
      simp [h a (List.mem_cons_self a _)]

lemma wsTidy_append : ∀ (a b : Str), wsTidy a = true → wsTidy b = true →
    (∀ x y, a.getLast? = some x → b.head? = some y →
      ¬(isPySpace x = true ∧ isPySpace y = true)) →
    wsTidy (a ++ b) = true := by
  intro a
  induction a with
  | nil => intro b _ hb _; exact hb
  | cons x xs ih =>
    intro b ha hb hj
    cases xs with
    | nil =>
      have hx : (!isPySpace x || x = ' ') = true := by
        rw [wsTidy] at ha
        exact ha
      cases b with
      | nil => exact ha
      | cons y b2 =>
        rw [List.singleton_append, wsTidy]
        simp only [Bool.and_eq_true, Bool.not_eq_true']
        refine ⟨⟨hx, ?_⟩, hb⟩
        have := hj x y rfl rfl
        simp only [Bool.and_eq_true] at this
        by_cases hsx : isPySpace x = true
        · by_cases hsy : isPySpace y = true
          · exact absurd ⟨hsx, hsy⟩ this
          · simp [hsx, hsy]
        · simp [hsx]
    | cons z xs2 =>
      rw [wsTidy] at ha
      simp only [Bool.and_eq_true] at ha
      obtain ⟨⟨hx, hadj⟩, hxs⟩ := ha
      rw [List.cons_append, List.cons_append, wsTidy]
      simp only [Bool.and_eq_true]
      refine ⟨⟨hx, hadj⟩, ?_⟩
      rw [← List.cons_append]
      exact ih b hxs hb (fun v w hv hw => hj v w (by
        rw [List.getLast?_cons_cons]
        exact hv) hw)

lemma collapseWsGo_id : ∀ s : Str, wsTidy s = true →
    collapseWsGo false s = s
    ∧ ((∀ c, s.head? = some c → isPySpace c = false) → collapseWsGo true s = s) := by
  intro s
  induction s with
  | nil => intro _; exact ⟨rfl, fun _ => rfl⟩
  | cons a t ih =>
    intro h
    have hparts : (!isPySpace a || a = ' ') = true ∧ wsTidy t = true
        ∧ (∀ c, t.head? = some c → isPySpace a = true → isPySpace c = false) := by
      cases t with
      | nil => exact ⟨h, rfl, fun c hc => by cases hc⟩
      | cons b t2 =>
        rw [wsTidy] at h
        simp only [Bool.and_eq_true, Bool.not_eq_true'] at h
        refine ⟨h.1.1, h.2, fun c hc hsa => ?_⟩
        obtain rfl : b = c := by injection hc
        rw [Bool.and_eq_false_iff] at h
        rcases h.1.2 with h2 | h2
        · exact absurd hsa (by simp [h2])
        · exact h2
    obtain ⟨hx, ht, hadj⟩ := hparts
    have hrest := ih ht
    constructor
    · rw [collapseWsGo]
      by_cases hsa : isPySpace a = true
      · have ha : a = ' ' := by
          simp only [Bool.or_eq_true, Bool.not_eq_true', decide_eq_true_eq] at hx
          rcases hx with h1 | h1
          · exact absurd hsa (by simp [h1])
          · exact h1
        rw [if_pos hsa, if_neg (by simp)]
        rw [hrest.2 (fun c hc => hadj c hc hsa), ha]
      · rw [if_neg hsa]
        rw [hrest.1]
    · intro hh
      have hsa : isPySpace a = false := hh a rfl
      rw [collapseWsGo, if_neg (by simp [hsa]), hrest.1]

lemma stripCh_eq_self (ch : Char) (s : Str)
    (h1 : ∀ c, s.head? = some c → ¬(c = ch))
    (h2 : ∀ c, s.getLast? = some c → ¬(c = ch)) : stripCh ch s = s :=
  stripP_eq_self _ _ (fun c hc => decide_eq_false (h1 c hc))
    (fun c hc => decide_eq_false (h2 c hc))

lemma latexToText_id (s : Str) (hclean : clean s = s) (hne : s ≠ [])
    (hbr : ∀ c ∈ s, ¬(c = '{') ∧ ¬(c = '}')) (hws : wsTidy s = true) :
    latexToText s = s := by
  rw [latexToText, hclean, if_neg hne]
  have hfil : s.filter (fun c => !(c = '{' || c = '}')) = s := by
    refine List.filter_eq_self.mpr (fun c hc => ?_)
    simp only [Bool.not_eq_true', Bool.or_eq_false_iff]
    exact ⟨decide_eq_false (hbr c hc).1, decide_eq_false (hbr c hc).2⟩
  rw [hfil, collapseWs, (collapseWsGo_id s hws).1, hclean]

lemma splitFirstCh_append (ch : Char) : ∀ (a b : Str), (∀ x ∈ a, ¬(x = ch)) →
    splitFirstCh ch (a ++ ch :: b) = some (a, b) := by
  intro a
  induction a with
  | nil =>
    intro b _
    rw [List.nil_append, splitFirstCh, if_pos rfl]
  | cons x t ih =>
    intro b h
    rw [List.cons_append, splitFirstCh,
      if_neg (h x (List.mem_cons_self x t)),
      ih b (fun y hy => h y (List.mem_cons_of_mem x hy))]
    rfl

lemma splitEveryGo_noSep (p : Char → Bool) : ∀ (t acc : Str),
    (∀ c ∈ t, p c = false) → splitEveryGo p t acc = [acc.reverse ++ t] := by
  intro t
  induction t with
  | nil => intro acc _; simp [splitEveryGo]
  | cons c t2 ih =>
    intro acc h
    rw [splitEveryGo, if_neg (by simp [h c (List.mem_cons_self c t2)])]
    rw [ih (c :: acc) (fun x hx => h x (List.mem_cons_of_mem c hx))]
    simp

lemma splitEveryGo_seg (p : Char → Bool) (sc : Char) (hs : p sc = true) :
    ∀ (t rest acc : Str), (∀ c ∈ t, p c = false) →
    splitEveryGo p (t ++ sc :: rest) acc
      = (acc.reverse ++ t) :: splitEveryGo p rest [] := by
  intro t
  induction t with
  | nil =>
    intro rest acc _
    rw [List.nil_append, splitEveryGo, if_pos hs]
    simp
  | cons c t2 ih =>
    intro rest acc h
    rw [List.cons_append, splitEveryGo,
      if_neg (by simp [h c (List.mem_cons_self c t2)])]
    rw [ih rest (c :: acc) (fun x hx => h x (List.mem_cons_of_mem c hx))]
    simp

lemma splitEvery_joinSep (p : Char → Bool) (sc : Char) (hs : p sc = true) :
    ∀ ts : List Str, (∀ t ∈ ts, ∀ c ∈ t, p c = false) → ts ≠ [] →
    splitEvery p (joinSep [sc] ts) = ts := by
  intro ts
  induction ts with
  | nil => intro _ h; exact absurd rfl h
  | cons t rest ih =>
    intro hts _
    cases rest with
    | nil =>
      rw [joinSep, splitEvery,
        splitEveryGo_noSep p t [] (hts t (List.mem_cons_self t []))]
      rfl
    | cons u rest2 =>
      rw [joinSep_cons2, List.append_assoc, List.singleton_append, splitEvery]
      rw [splitEveryGo_seg p sc hs _ _ []
        (hts t (List.mem_cons_self t _))]
      rw [List.reverse_nil, List.nil_append]
      rw [show splitEveryGo p (joinSep [sc] (u :: rest2)) [] =
        splitEvery p (joinSep [sc] (u :: rest2)) from rfl]
      rw [ih (fun v hv => hts v (List.mem_cons_of_mem t hv)) (by simp)]

lemma mkInitials_plain : ∀ ts : List Str, (∀ t ∈ ts, plainTok t = true) →
    mkInitials ts = ts.map BuildPub.initialMark := by
  intro ts
  induction ts with
  | nil => intro _; rfl
  | cons tok rest ih =>
    intro h
    have htok := h tok (List.mem_cons_self tok rest)
    have hgood := plainTok_good htok
    have hhead : ∀ c, tok.head? = some c → goodChar c = true :=
      fun c hc => hgood c (List.mem_of_mem_head? hc)
    have hlast : ∀ c, tok.getLast? = some c → goodChar c = true :=
      fun c hc => hgood c (List.mem_of_getLast?_eq_some hc)
    have hcl : clean tok = tok :=
      stripP_eq_self _ _ (fun c hc => (goodChar_spec c (hhead c hc)).1)
        (fun c hc => (goodChar_spec c (hlast c hc)).1)
    have hdot : stripCh '.' tok = tok :=
      stripCh_eq_self '.' tok (fun c hc => (goodChar_spec c (hhead c hc)).2.2.2.1)
        (fun c hc => (goodChar_spec c (hlast c hc)).2.2.2.1)
    have hcom : stripCh ',' tok = tok :=
      stripCh_eq_self ',' tok (fun c hc => (goodChar_spec c (hhead c hc)).2.2.1)
        (fun c hc => (goodChar_spec c (hlast c hc)).2.2.1)
    rw [mkInitials, hcl, hdot, hcom, if_neg (plainTok_ne_nil htok), List.map_cons]
    rw [ih (fun v hv => h v (List.mem_cons_of_mem tok hv))]

lemma getLastD_cons_mem : ∀ (l : List Str) (a : Str), (a :: l).getLastD [] ∈ a :: l := by
  intro l
  induction l with
  | nil => intro a; exact List.mem_cons_self a []
  | cons b l2 ih =>
    intro a
    rw [List.getLastD_cons]
    have hb := ih b
    rw [show (b :: l2).getLastD [] = (b :: l2).getLastD a from by
      cases l2 <;> rfl] at hb
    exact List.mem_cons_of_mem a hb

lemma wsTidy_cons_space (J : Str) (hJw : wsTidy J = true)
    (hJh : ∀ c, J.head? = some c → isPySpace c = false) :
    wsTidy (' ' :: J) = true := by
  cases J with
  | nil => rfl
  | cons j0 Jr =>
    rw [wsTidy]
    simp only [Bool.and_eq_true, Bool.not_eq_true']
    exact ⟨⟨by simp, by simp [hJh j0 rfl]⟩, hJw⟩

lemma plain_head_good {t : Str} (h : plainTok t = true) :
    ∀ c, t.head? = some c → goodChar c = true :=
  fun c hc => plainTok_good h c (List.mem_of_mem_head? hc)

lemma plain_getLast_good {t : Str} (h : plainTok t = true) :
    ∀ c, t.getLast? = some c → goodChar c = true :=
  fun c hc => plainTok_good h c (List.mem_of_getLast?_eq_some hc)

lemma plain_no_space {t : Str} (h : plainTok t = true) :
    ∀ c ∈ t, isPySpace c = false :=
  fun c hc => (goodChar_spec c (plainTok_good h c hc)).1

lemma joinSep_head_good (sc : Char) {ts : List Str}
    (hts : ∀ t ∈ ts, plainTok t = true) (t0 : Str) (ts' : List Str)
    (he : ts = t0 :: ts') :
    ∀ c, (joinSep [sc] ts).head? = some c → goodChar c = true := by
  subst he
  intro c hc
  rw [joinSep_head? [sc] t0 ts'
    (plainTok_ne_nil (hts t0 (List.mem_cons_self t0 ts')))] at hc
  exact plain_head_good (hts t0 (List.mem_cons_self t0 ts')) c hc

lemma joinSep_getLast_good (sc : Char) {ts : List Str}
    (hts : ∀ t ∈ ts, plainTok t = true) (t0 : Str) (ts' : List Str)
    (he : ts = t0 :: ts') :
    ∀ c, (joinSep [sc] ts).getLast? = some c → goodChar c = true := by
  subst he
  intro c hc
  rw [joinSep_getLast? [sc] ts' t0
    (fun u hu => plainTok_ne_nil (hts u (List.mem_cons_of_mem t0 hu)))] at hc
  exact plain_getLast_good (hts _ (getLastD_cons_mem ts' t0)) c hc

lemma wsTidy_joinSep (sc : Char) (hsc : sc = ' ' ∨ sc = '-') :
    ∀ ts : List Str, (∀ t ∈ ts, plainTok t = true) → ts ≠ [] →
    wsTidy (joinSep [sc] ts) = true := by
  intro ts
  induction ts with
  | nil => intro _ h; exact absurd rfl h
  | cons t rest ih =>
    intro hts _
    have htp := hts t (List.mem_cons_self t rest)
    cases rest with
    | nil => exact wsTidy_of_no_space t (plain_no_space htp)
    | cons u rest2 =>
      rw [joinSep_cons2, List.append_assoc, List.singleton_append]
      have hrest : ∀ v ∈ u :: rest2, plainTok v = true :=
        fun v hv => hts v (List.mem_cons_of_mem t hv)
      have hJw := ih hrest (by simp)
      have hJh := joinSep_head_good sc hrest u rest2 rfl
      have htail : wsTidy (sc :: joinSep [sc] (u :: rest2)) = true := by
        rcases hsc with rfl | rfl
        · exact wsTidy_cons_space _ hJw
            (fun c hc => (goodChar_spec c (hJh c hc)).1)
        · cases hj : joinSep ['-'] (u :: rest2) with
          | nil => rfl
          | cons j0 Jr =>
            rw [wsTidy]
            simp only [Bool.and_eq_true, Bool.not_eq_true']
            refine ⟨⟨by decide, by rw [show isPySpace '-' = false from by decide, Bool.false_and]⟩, ?_⟩
            rw [← hj]
            exact hJw
      refine wsTidy_append t _ (wsTidy_of_no_space t (plain_no_space htp))
        htail ?_
      intro x y hx hy
      have hgx := plain_getLast_good htp x hx
      intro hcon
      rw [(goodChar_spec x hgx).1] at hcon
      exact Bool.noConfusion hcon.1

lemma clean_cons_space (J : Str)
    (hh : ∀ c, J.head? = some c → isPySpace c = false)
    (hg : ∀ c, J.getLast? = some c → isPySpace c = false) :
    clean (' ' :: J) = J := by
  rw [clean, stripP]
  rw [show (' ' :: J).dropWhile isPySpace = J.dropWhile isPySpace from by
    simp [List.dropWhile_cons, show isPySpace ' ' = true from by decide]]
  rw [dropWhile_eq_self_of_head isPySpace J hh]
  rw [dropEndP, dropWhile_eq_self_of_head isPySpace J.reverse
    (fun c hc => hg c (by rwa [List.head?_reverse] at hc)),
    List.reverse_reverse]

lemma clean_plain {t : Str} (h : plainTok t = true) : clean t = t :=
  stripP_eq_self _ _ (fun c hc => (goodChar_spec c (plain_head_good h c hc)).1)
    (fun c hc => (goodChar_spec c (plain_getLast_good h c hc)).1)

lemma normalizeName_id (s : Str)
    (hh : ∀ c, s.head? = some c → goodChar c = true)
    (hg : ∀ c, s.getLast? = some c → goodChar c = true)
    (hbr : ∀ c ∈ s, ¬(c = '{') ∧ ¬(c = '}'))
    (hws : wsTidy s = true) (hne : s ≠ []) :
    stripCh ',' (clean (latexToText s)) = s := by
  have hclean : clean s = s :=
    stripP_eq_self _ _ (fun c hc => (goodChar_spec c (hh c hc)).1)
      (fun c hc => (goodChar_spec c (hg c hc)).1)
  rw [latexToText_id s hclean hne hbr hws, hclean]
  exact stripCh_eq_self ',' s (fun c hc => (goodChar_spec c (hh c hc)).2.2.1)
    (fun c hc => (goodChar_spec c (hg c hc)).2.2.1)

lemma initials_of_plain (sc : Char) (hsep : isSepWsHyph sc = true)
    (ts : List Str) (hts : ∀ t ∈ ts, plainTok t = true) (hne : ts ≠ []) (last : Str) :
    BuildPub.lastGiven last (joinSep [sc] ts)
      = last ++ lit ", " ++ joinSep (lit " ") (ts.map BuildPub.initialMark) := by
  rw [BuildPub.lastGiven]
  rw [splitEvery_joinSep isSepWsHyph sc hsep ts
    (fun t ht c hc => (goodChar_spec c (plainTok_good (hts t ht) c hc)).2.1) hne]
  rw [mkInitials_plain ts hts]
  rw [if_pos ?hne2]
  case hne2 =>
    cases ts with
    | nil => exact absurd rfl hne
    | cons a b => simp

lemma formatOneAuthor_comma (sc : Char) (hsc : sc = ' ' ∨ sc = '-')
    (last : Str) (ts : List Str) (hl : plainTok last = true)
    (hts : ∀ t ∈ ts, plainTok t = true) (hne : ts ≠ []) :
    BuildPub.formatOneAuthor (last ++ lit ", " ++ joinSep [sc] ts)
      = some (last ++ lit ", " ++ joinSep (lit " ") (ts.map BuildPub.initialMark)) := by
  obtain ⟨t0, ts', rfl⟩ : ∃ t0 ts', ts = t0 :: ts' := by
    cases ts with
    | nil => exact absurd rfl hne
    | cons a b => exact ⟨a, b, rfl⟩
  have hassoc : last ++ lit ", " ++ joinSep [sc] (t0 :: ts')
      = last ++ (',' :: ' ' :: joinSep [sc] (t0 :: ts')) := by
    rw [List.append_assoc]
    rfl
  rw [hassoc]
  have hlne : last ≠ [] := plainTok_ne_nil hl
  have hJh := joinSep_head_good sc hts t0 ts' rfl
  have hJg := joinSep_getLast_good sc hts t0 ts' rfl
  have hJne : joinSep [sc] (t0 :: ts') ≠ [] :=
    joinSep_ne_nil [sc] t0 ts' (plainTok_ne_nil (hts t0 (List.mem_cons_self t0 ts')))
  have hscg : ¬(sc = '{') ∧ ¬(sc = '}') ∧ ¬(sc = ',') ∧ isSepWsHyph sc = true := by
    rcases hsc with rfl | rfl
    · exact ⟨by decide, by decide, by decide, by decide⟩
    · exact ⟨by decide, by decide, by decide, by decide⟩
  have hN : ∀ c ∈ last ++ (',' :: ' ' :: joinSep [sc] (t0 :: ts')),
      goodChar c = true ∨ c = ',' ∨ c = ' ' ∨ c = sc := by
    intro c hc
    rcases List.mem_append.mp hc with hc | hc
    · exact Or.inl (plainTok_good hl c hc)
    · rcases List.mem_cons.mp hc with rfl | hc
      · exact Or.inr (Or.inl rfl)
      · rcases List.mem_cons.mp hc with rfl | hc
        · exact Or.inr (Or.inr (Or.inl rfl))
        · rcases mem_joinSep [sc] _ c hc with hc | ⟨t, ht, hct⟩
          · exact Or.inr (Or.inr (Or.inr (List.mem_singleton.mp hc)))
          · exact Or.inl (plainTok_good (hts t ht) c hct)
  have hnorm : stripCh ','
      (clean (latexToText (last ++ (',' :: ' ' :: joinSep [sc] (t0 :: ts')))))
      = last ++ (',' :: ' ' :: joinSep [sc] (t0 :: ts')) := by
    refine normalizeName_id _ ?_ ?_ ?_ ?_ ?_
    · intro c hc
      rw [head?_append_left _ hlne] at hc
      exact plain_head_good hl c hc
    · intro c hc
      rw [List.getLast?_append_of_ne_nil last (by simp)] at hc
      rw [List.getLast?_cons_cons] at hc
      rw [show (' ' :: joinSep [sc] (t0 :: ts')).getLast?
          = (joinSep [sc] (t0 :: ts')).getLast? from
        List.getLast?_append_of_ne_nil [' '] hJne] at hc
      exact hJg c hc
    · intro c hc
      rcases hN c hc with hgc | rfl | rfl | rfl
      · exact ⟨(goodChar_spec c hgc).2.2.2.2.2.1, (goodChar_spec c hgc).2.2.2.2.2.2⟩
      · exact ⟨by decide, by decide⟩
      · exact ⟨by decide, by decide⟩
      · exact ⟨hscg.1, hscg.2.1⟩
    · refine wsTidy_append last _ (wsTidy_of_no_space last (plain_no_space hl)) ?_ ?_
      · rw [wsTidy]
        simp only [Bool.and_eq_true, Bool.not_eq_true']
        refine ⟨⟨by decide, by decide⟩, ?_⟩
        exact wsTidy_cons_space _ (wsTidy_joinSep sc hsc _ hts (by simp))
          (fun c hc => (goodChar_spec c (hJh c hc)).1)
      · intro x y hx hy
        have hgx := plain_getLast_good hl x hx
        intro hcon
        rw [(goodChar_spec x hgx).1] at hcon
        exact Bool.noConfusion hcon.1
    · simp [hlne]
  simp only [BuildPub.formatOneAuthor]
  rw [hnorm]
  rw [if_neg (by simp [hlne])]
  have hcm : hasSubstr (last ++ (',' :: ' ' :: joinSep [sc] (t0 :: ts'))) [','] = true :=
    hasSubstr_singleton_iff.mpr
      (List.mem_append.mpr (Or.inr (List.mem_cons_self _ _)))
  rw [hcm]
  rw [if_pos rfl]
  rw [splitFirstCh_append ',' last (' ' :: joinSep [sc] (t0 :: ts'))
    (fun x hx => (goodChar_spec x (plainTok_good hl x hx)).2.2.1)]
  show some (BuildPub.lastGiven (clean last) (clean (' ' :: joinSep [sc] (t0 :: ts'))))
      = some (last ++ lit ", " ++ joinSep (lit " ") ((t0 :: ts').map BuildPub.initialMark))
  rw [clean_plain hl]
  rw [clean_cons_space _ (fun c hc => (goodChar_spec c (hJh c hc)).1)
    (fun c hc => (goodChar_spec c (hJg c hc)).1)]
  rw [initials_of_plain sc hscg.2.2.2 _ hts (by simp) last]

lemma plain_not_isEmpty {t : Str} (h : plainTok t = true) : (!t.isEmpty) = true := by
  rw [Bool.not_eq_true']
  cases ht : t.isEmpty with
  | false => rfl
  | true => exact absurd (List.isEmpty_iff.mp ht) (plainTok_ne_nil h)

lemma formatOneAuthor_nocomma (last : Str) (ts : List Str) (hl : plainTok last = true)
    (hts : ∀ t ∈ ts, plainTok t = true) (hne : ts ≠ []) :
    BuildPub.formatOneAuthor (joinSep [' '] (ts ++ [last]))
      = some (last ++ lit ", " ++ joinSep (lit " ") (ts.map BuildPub.initialMark)) := by
  obtain ⟨t0, ts', rfl⟩ : ∃ t0 ts', ts = t0 :: ts' := by
    cases ts with
    | nil => exact absurd rfl hne
    | cons a b => exact ⟨a, b, rfl⟩
  have hall : ∀ t ∈ (t0 :: ts') ++ [last], plainTok t = true := by
    intro t ht
    rcases List.mem_append.mp ht with ht | ht
    · exact hts t ht
    · rw [List.mem_singleton.mp ht]
      exact hl
  have hcons : (t0 :: ts') ++ [last] = t0 :: (ts' ++ [last]) := rfl
  have hNh := joinSep_head_good ' ' hall t0 (ts' ++ [last]) hcons
  have hNg := joinSep_getLast_good ' ' hall t0 (ts' ++ [last]) hcons
  have hNne : joinSep [' '] ((t0 :: ts') ++ [last]) ≠ [] := by
    rw [hcons]
    exact joinSep_ne_nil [' '] t0 (ts' ++ [last])
      (plainTok_ne_nil (hall t0 (List.mem_cons_self t0 _)))
  have hNh2 : ∀ c, (joinSep [' '] ((t0 :: ts') ++ [last])).head? = some c →
      goodChar c = true := by
    rw [hcons] at hNh ⊢
    exact hNh
  have hNg2 : ∀ c, (joinSep [' '] ((t0 :: ts') ++ [last])).getLast? = some c →
      goodChar c = true := by
    rw [hcons] at hNg ⊢
    exact hNg
  have hnorm : stripCh ',' (clean (latexToText (joinSep [' '] ((t0 :: ts') ++ [last]))))
      = joinSep [' '] ((t0 :: ts') ++ [last]) := by
    refine normalizeName_id _ hNh2 hNg2 ?_ ?_ hNne
    · intro c hc
      rcases mem_joinSep [' '] _ c hc with hc | ⟨t, ht, hct⟩
      · rw [List.mem_singleton.mp hc]
        exact ⟨by decide, by decide⟩
      · exact ⟨(goodChar_spec c (plainTok_good (hall t ht) c hct)).2.2.2.2.2.1,
          (goodChar_spec c (plainTok_good (hall t ht) c hct)).2.2.2.2.2.2⟩
    · exact wsTidy_joinSep ' ' (Or.inl rfl) _ hall (by simp)
  have hsub : hasSubstr (joinSep [' '] ((t0 :: ts') ++ [last])) [','] = false := by
    refine not_hasSubstr_singleton ?_
    intro hmem
    rcases mem_joinSep [' '] _ ',' hmem with hc | ⟨t, ht, hct⟩
    · exact absurd (List.mem_singleton.mp hc) (by decide)
    · exact (goodChar_spec ',' (plainTok_good (hall t ht) ',' hct)).2.2.1 rfl
  have hbits : BuildPub.splitWsTokens (joinSep [' '] ((t0 :: ts') ++ [last]))
      = (t0 :: ts') ++ [last] := by
    rw [BuildPub.splitWsTokens,
      splitEvery_joinSep isPySpace ' ' (by decide) _
        (fun t ht c hc => plain_no_space (hall t ht) c hc) (by simp)]
    exact List.filter_eq_self.mpr (fun t ht => plain_not_isEmpty (hall t ht))
  simp only [BuildPub.formatOneAuthor]
  rw [hnorm]
  rw [if_neg hNne]
  rw [hsub]
  rw [if_neg Bool.false_ne_true]
  rw [hbits]
  rw [if_neg (by
    simp only [List.length_append, List.length_cons, List.length_nil]
    omega)]
  rw [if_neg (by simp)]
  rw [List.getLastD_concat, List.dropLast_concat]
  exact congrArg some (initials_of_plain ' ' (by decide) (t0 :: ts') hts (by simp) last)

/-- C1: for author names made of plain ASCII-letter tokens, the three shapes
the claim describes hold exactly.  A name `Last, t1 ... tn` (comma form)
formats as `Last, I1. ... In.` with each given-name token reduced to its
upper-cased first letter plus a period; hyphen-joined given names
`Last, t1-...-tn` are split on the hyphens the same way; and a comma-free
name `t1 ... tn Last` takes the final whitespace-separated token as the
surname and the preceding tokens as initials. -/
theorem c1_format_one_author (last : Str) (ts : List Str)
    (hl : plainTok last = true) (hts : ∀ t ∈ ts, plainTok t = true)
    (hne : ts ≠ []) :
    BuildPub.formatOneAuthor (last ++ lit ", " ++ joinSep (lit " ") ts)
      = some (last ++ lit ", " ++ joinSep (lit " ") (ts.map BuildPub.initialMark))
    ∧ BuildPub.formatOneAuthor (last ++ lit ", " ++ joinSep (lit "-") ts)
      = some (last ++ lit ", " ++ joinSep (lit " ") (ts.map BuildPub.initialMark))
    ∧ BuildPub.formatOneAuthor (joinSep (lit " ") (ts ++ [last]))
      = some (last ++ lit ", " ++ joinSep (lit " ") (ts.map BuildPub.initialMark)) :=
  ⟨formatOneAuthor_comma ' ' (Or.inl rfl) last ts hl hts hne,
    formatOneAuthor_comma '-' (Or.inr rfl) last ts hl hts hne,
    formatOneAuthor_nocomma last ts hl hts hne⟩

/-- C1 witness: the comma form at the concrete name `Smith, First Middle`,
which formats to `Smith, F. M.`. -/
theorem c1_format_one_author_witness :
    BuildPub.formatOneAuthor (lit "Smith" ++ lit ", " ++ joinSep (lit " ")
        [lit "First", lit "Middle"])
      = some (lit "Smith" ++ lit ", " ++ joinSep (lit " ")
        ([lit "First", lit "Middle"].map BuildPub.initialMark))
    ∧ lit "Smith" ++ lit ", " ++ joinSep (lit " ")
        [lit "First", lit "Middle"] = lit "Smith, First Middle"
    ∧ lit "Smith" ++ lit ", " ++ joinSep (lit " ")
        ([lit "First", lit "Middle"].map BuildPub.initialMark) = lit "Smith, F. M." :=
  ⟨(c1_format_one_author (lit "Smith") [lit "First", lit "Middle"]
      (by decide) (by decide) (by decide)).1, by decide, by decide⟩

lemma isPrefixOf_append_ext (p a b : Str) (hlen : p.length ≤ a.length) :
    p.isPrefixOf (a ++ b) = p.isPrefixOf a := by
  refine bool_eq_of_iff ?_
  rw [isPrefixOf_true_iff, isPrefixOf_true_iff, List.prefix_iff_eq_take,
    List.prefix_iff_eq_take, List.take_append_of_le_length hlen]

lemma splitSepGo_skip (sep : Str) : ∀ (u rest acc : Str),
    splitSepGo sep (u ++ rest) acc u.length = splitSepGo sep rest acc 0 := by
  intro u
  induction u with
  | nil => intro rest acc; rfl
  | cons c u2 ih => intro rest acc; exact ih rest acc

lemma splitSepGo_clear (sep : Str) : ∀ (n acc : Str), sepClear sep n = true →
    splitSepGo sep n acc 0 = [acc.reverse ++ n] := by
  intro n
  induction n with
  | nil => intro acc _; simp [splitSepGo]
  | cons c t ih =>
    intro acc hsc
    rw [sepClear] at hsc
    simp only [Bool.and_eq_true, Bool.not_eq_true'] at hsc
    obtain ⟨hpre, ht⟩ := hsc
    simp only [splitSepGo]
    rw [if_neg ?hne]
    case hne =>
      intro hp
      have hp2 : sep.isPrefixOf ((c :: t) ++ sep) = true :=
        isPrefixOf_true_iff.mpr
          ((isPrefixOf_true_iff.mp hp).trans (List.prefix_append _ _))
      rw [hpre] at hp2
      exact Bool.noConfusion hp2
    rw [ih (c :: acc) ht]
    simp

lemma splitSepGo_mid (sep : Str) (hne : sep ≠ []) : ∀ (n rest acc : Str),
    sepClear sep n = true →
    splitSepGo sep (n ++ sep ++ rest) acc 0
      = (acc.reverse ++ n) :: splitSepGo sep rest [] 0 := by
  intro n
  induction n with
  | nil =>
    intro rest acc _
    cases sep with
    | nil => exact absurd rfl hne
    | cons s0 s2 =>
      simp only [List.nil_append, List.cons_append]
      simp only [splitSepGo]
      rw [if_pos (isPrefixOf_true_iff.mpr
        (by rw [← List.cons_append]; exact List.prefix_append _ _))]
      rw [show (s0 :: s2).length - 1 = s2.length from by simp]
      rw [splitSepGo_skip (s0 :: s2) s2 rest []]
      simp
  | cons c n2 ih =>
    intro rest acc hsc
    rw [sepClear] at hsc
    simp only [Bool.and_eq_true, Bool.not_eq_true'] at hsc
    obtain ⟨hpre, hn2⟩ := hsc
    have hshape : ((c :: n2) ++ sep) ++ rest = c :: ((n2 ++ sep) ++ rest) := by
      simp
    rw [hshape]
    simp only [splitSepGo]
    rw [if_neg ?hpre2]
    case hpre2 =>
      intro hp
      have he : (c :: ((n2 ++ sep) ++ rest)) = ((c :: n2) ++ sep) ++ rest := by simp
      rw [he] at hp
      rw [isPrefixOf_append_ext sep ((c :: n2) ++ sep) rest
        (by simp only [List.length_append]; omega)] at hp
      rw [hpre] at hp
      exact Bool.noConfusion hp
    rw [show (n2 ++ sep) ++ rest = (n2 ++ sep ++ rest) from by simp]
    rw [ih rest (c :: acc) hn2]
    simp

lemma splitSep_joinSep (sep : Str) (hne : sep ≠ []) : ∀ ns : List Str,
    (∀ n ∈ ns, sepClear sep n = true) → ns ≠ [] →
    splitSep sep (joinSep sep ns) = ns := by
  intro ns
  induction ns with
  | nil => intro _ h; exact absurd rfl h
  | cons n rest ih =>
    intro hns _
    cases rest with
    | nil =>
      rw [joinSep, splitSep,
        splitSepGo_clear sep n [] (hns n (List.mem_cons_self n []))]
      rfl
    | cons m rest2 =>
      rw [joinSep_cons2, splitSep,
        splitSepGo_mid sep hne n _ [] (hns n (List.mem_cons_self n _))]
      rw [show splitSepGo sep (joinSep sep (m :: rest2)) [] 0
        = splitSep sep (joinSep sep (m :: rest2)) from rfl]
      rw [ih (fun v hv => hns v (List.mem_cons_of_mem n hv)) (by simp)]
      rfl

lemma mapOpt_eq_map (f : Str → Option Str) : ∀ l : List Str,
    (∀ a ∈ l, f a ≠ none) →
    mapOpt f l = some (l.map (fun a => (f a).getD [])) := by
  intro l
  induction l with
  | nil => intro _; rfl
  | cons a t ih =>
    intro h
    cases hfa : f a with
    | none => exact absurd hfa (h a (List.mem_cons_self a t))
    | some b =>
      rw [mapOpt, hfa, ih (fun v hv => h v (List.mem_cons_of_mem a hv))]
      simp [hfa]

lemma map_eq_self_of_id (f : Str → Str) : ∀ l : List Str,
    (∀ a ∈ l, f a = a) → l.map f = l := by
  intro l
  induction l with
  | nil => intro _; rfl
  | cons a t ih =>
    intro h
    rw [List.map_cons, h a (List.mem_cons_self a t),
      ih (fun v hv => h v (List.mem_cons_of_mem a hv))]

/-- C6: the author-list join rule.  For any list of names whose pieces survive
the split-and-strip round trip (no internal occurrence of the separator, no
surrounding whitespace or commas, and a non-empty formatted form), the
formatter applied to the `" and "`-joined author field formats each name and
joins them exactly as claimed: one name bare; two names joined by `" and "`;
three or more joined by `"; "` with a final plain `" and "` and no semicolon
before it. -/
theorem c6_author_list_join (ns : List Str)
    (h : ∀ n ∈ ns, sepClear (lit " and ") n = true ∧ clean n = n
      ∧ stripCh ',' n = n ∧ n ≠ []
      ∧ BuildPub.formatOneAuthor n ≠ none ∧ BuildPub.formatOneAuthor n ≠ some []) :
    (∀ a, ns = [a] →
      BuildPub.formatAuthorList (joinSep (lit " and ") ns) = some (fmtA a))
    ∧ (∀ a b, ns = [a, b] →
      BuildPub.formatAuthorList (joinSep (lit " and ") ns)
        = some (fmtA a ++ lit " and " ++ fmtA b))
    ∧ (3 ≤ ns.length →
      BuildPub.formatAuthorList (joinSep (lit " and ") ns)
        = some (joinSep (lit "; ") ((ns.map fmtA).dropLast) ++ lit " and "
          ++ (ns.map fmtA).getLastD [])) := by
  have key : ns ≠ [] → BuildPub.splitAuthors (joinSep (lit " and ") ns) = ns := by
    intro hne
    rw [BuildPub.splitAuthors,
      splitSep_joinSep (lit " and ") (by decide) ns (fun n hn => (h n hn).1) hne]
    rw [List.filter_eq_self.mpr (fun n hn => decide_eq_true (by
      rw [(h n hn).2.1]
      exact (h n hn).2.2.2.1))]
    exact map_eq_self_of_id _ ns (fun n hn => by
      rw [(h n hn).2.1, (h n hn).2.2.1])
  have hfa : ∀ n ∈ ns, fmtA n ≠ [] := by
    intro n hn hfe
    obtain ⟨-, -, -, -, hnn, hns⟩ := h n hn
    cases hv : BuildPub.formatOneAuthor n with
    | none => exact hnn hv
    | some v =>
      rw [fmtA, hv] at hfe
      have hv2 : v = [] := hfe
      rw [hv2] at hv
      exact hns hv
  have hmo : ns ≠ [] → mapOpt BuildPub.formatOneAuthor ns = some (ns.map fmtA) := by
    intro _
    exact mapOpt_eq_map _ ns (fun n hn => (h n hn).2.2.2.2.1)
  have hfil : (ns.map fmtA).filter (fun a => a ≠ []) = ns.map fmtA := by
    refine List.filter_eq_self.mpr ?_
    intro a ha
    rcases List.mem_map.mp ha with ⟨n, hn, rfl⟩
    exact decide_eq_true (hfa n hn)
  have main : ns ≠ [] → BuildPub.formatAuthorList (joinSep (lit " and ") ns)
      = (if ns.map fmtA = [] then some []
        else if (ns.map fmtA).length = 1 then some ((ns.map fmtA).headD [])
        else if (ns.map fmtA).length = 2 then
          some ((ns.map fmtA).headD [] ++ lit " and " ++ ((ns.map fmtA).drop 1).headD [])
        else some (joinSep (lit "; ") (ns.map fmtA).dropLast ++ lit " and "
          ++ (ns.map fmtA).getLastD [])) := by
    intro hne
    rw [BuildPub.formatAuthorList, key hne, hmo hne]
    show (if ((ns.map fmtA).filter (fun a => a ≠ [])) = [] then some []
        else if ((ns.map fmtA).filter (fun a => a ≠ [])).length = 1 then
          some (((ns.map fmtA).filter (fun a => a ≠ [])).headD [])
        else if ((ns.map fmtA).filter (fun a => a ≠ [])).length = 2 then
          some (((ns.map fmtA).filter (fun a => a ≠ [])).headD [] ++ lit " and "
            ++ (((ns.map fmtA).filter (fun a => a ≠ [])).drop 1).headD [])
        else some (joinSep (lit "; ") ((ns.map fmtA).filter (fun a => a ≠ [])).dropLast
          ++ lit " and " ++ ((ns.map fmtA).filter (fun a => a ≠ [])).getLastD []))
      = _
    rw [hfil]
  refine ⟨?_, ?_, ?_⟩
  · intro a hns
    subst hns
    rw [main (by simp)]
    simp
  · intro a b hns
    subst hns
    rw [main (by simp)]
    simp
  · intro hlen
    have hne : ns ≠ [] := by
      intro he
      rw [he] at hlen
      exact absurd hlen (by simp)
    rw [main hne]
    rw [if_neg (by
      intro he
      have := congrArg List.length he
      rw [List.length_map] at this
      simp only [List.length_nil] at this
      omega)]
    rw [if_neg (by rw [List.length_map]; omega)]
    rw [if_neg (by rw [List.length_map]; omega)]

/-- C6 witness: the three-author case at a concrete author field, producing
semicolons between all but the last pair and a plain final `and`. -/
theorem c6_author_list_join_witness :
    BuildPub.formatAuthorList (joinSep (lit " and ")
        [lit "Smith, John", lit "Doe, Jane", lit "Roe, Alex"])
      = some (joinSep (lit "; ")
          (([lit "Smith, John", lit "Doe, Jane", lit "Roe, Alex"].map fmtA).dropLast)
        ++ lit " and "
        ++ ([lit "Smith, John", lit "Doe, Jane", lit "Roe, Alex"].map fmtA).getLastD [])
    ∧ joinSep (lit "; ")
          (([lit "Smith, John", lit "Doe, Jane", lit "Roe, Alex"].map fmtA).dropLast)
        ++ lit " and "
        ++ ([lit "Smith, John", lit "Doe, Jane", lit "Roe, Alex"].map fmtA).getLastD []
      = lit "Smith, J.; Doe, J. and Roe, A." :=
  ⟨(c6_author_list_join [lit "Smith, John", lit "Doe, Jane", lit "Roe, Alex"]
      (by decide)).2.2 (by decide), by decide⟩

end AuthorFormat

end NRGBib
